import Mathlib

set_option maxHeartbeats 1000000
set_option maxRecDepth 100000

/-!
Shallow embedding of the consensus core of the btc repository
(src/lib/src/types/blockchain.rs, src/lib/src/types/block.rs,
src/lib/src/types/transaction.rs, src/lib/src/util.rs, src/lib/src/sha256.rs).

Modelling conventions:
* `Hash` values are natural numbers; `Hash::zero()` is `0`.  SHA-256 together
  with the CBOR encoding is an opaque function of the hashed structure, so the
  embedding is parametric in a `HashModel` bundling the hash functions for each
  hashed type and the ECDSA verification predicate.  Theorems quantify over the
  model; concrete scenarios instantiate it.
* `u64` quantities are natural numbers.  The sums and subtractions the source
  performs on `u64` panic on overflow/underflow (debug builds of the uint and
  std arithmetic); a panic is modelled by the `panic` constructor of the result
  types below, and by `none` for `Option`-valued helpers.
* `U256` is a natural number; `U256::from_str_radix` fails (and the source
  `.expect`s, i.e. aborts) when the parsed value is negative or `≥ 2^256`.
* `DateTime<Utc>` timestamps are integers (seconds); `chrono` second
  differences are exact integer subtraction.
* `HashMap<Hash, _>` is an association list with the same observable
  behaviour (`get`, `contains_key`, `entry(..).and_modify`, `insert`,
  `remove`); the source never iterates a `HashMap`, so iteration order is
  irrelevant.
* `BigDecimal` retarget arithmetic: the source computes
  `target * (Δt / 500)` with decimal arithmetic and truncates at the decimal
  point.  Division by `500 = 2^2·5^3` is exact in decimal notation (well
  within the default 100-digit precision for an `i64` numerator), and decimal
  multiplication is exact, so the truncated result is exactly
  `target * Δt / 500` in integer division.
-/

namespace Btc

/-! Constants from src/lib/src/lib.rs. -/

def INITIAL_REWARD : Nat := 50

def HALVING_INTERVAL : Nat := 210

def IDEAL_BLOCK_TIME : Nat := 10

def DIFFICULTY_UPDATE_INTERVAL : Nat := 50

def MAX_MEMPOOL_TRANSACTION_AGE : Nat := 600

/-- Source: `u64` values live below this bound. -/
def U64LIMIT : Nat := 2 ^ 64

/-- Source: `u64::MAX`, the wrap point of the mining nonce. -/
def U64MAX : Nat := 2 ^ 64 - 1

/-- Source: `U256` values live below this bound. -/
def U256LIMIT : Nat := 2 ^ 256

/-- Source: `MIN_TARGET`: little-endian limbs `[2^64-1, 2^64-1, 2^64-1, 2^48-1]`,
i.e. the top 16 bits clear and all lower bits set. -/
def MIN_TARGET : Nat := 2 ^ 240 - 1

/-! Data model from src/lib/src/types/transaction.rs and block.rs. -/

structure TransactionOutput where
  value : Nat
  unique_id : Nat
  pubkey : Nat
deriving DecidableEq

structure TransactionInput where
  prev_transaction_output_hash : Nat
  signature : Nat
deriving DecidableEq

structure Transaction where
  inputs : List TransactionInput
  outputs : List TransactionOutput
deriving DecidableEq

structure BlockHeader where
  timestamp : Int
  nonce : Nat
  prev_block_hash : Nat
  merkle_root : Nat
  target : Nat
deriving DecidableEq

structure Block where
  header : BlockHeader
  transactions : List Transaction
deriving DecidableEq

/-- The UTXO index: `HashMap<Hash, (bool, TransactionOutput)>` as an
association list. -/
abbrev UtxoMap := List (Nat × (Bool × TransactionOutput))

structure Blockchain where
  utxos : UtxoMap
  target : Nat
  blocks : List Block
  mempool : List (Int × Transaction)
deriving DecidableEq

/-- The opaque hashing and signature layer: `Hash::hash` (CBOR + SHA-256) on
each hashed structure, and `Signature::verify`. -/
structure HashModel where
  txHash : Transaction → Nat
  outputHash : TransactionOutput → Nat
  headerHash : BlockHeader → Nat
  blockHash : Block → Nat
  pairHash : Nat → Nat → Nat
  sigVerify : Nat → Nat → Nat → Bool

/-! Error and result types (src/lib/src/error.rs). -/

inductive BtcError where
  | InvalidBlock
  | InvalidTransaction
  | InvalidHash
  | InvalidMerkleRoot
  | InvalidSignature
deriving DecidableEq

/-- Result of a fallible computation; `panic` models a Rust abort (failed
`.expect`/`.unwrap`, arithmetic overflow in debug mode). -/
inductive Checked (α : Type) where
  | panic : Checked α
  | err : BtcError → Checked α
  | ok : α → Checked α
deriving DecidableEq

/-- Result of a `&mut self` chain-state operation.  `err e bc` carries the
state as it stands when the error is returned (the source mutates in place,
so mutations made before the error survive). -/
inductive ChainResult where
  | panic : ChainResult
  | err : BtcError → Blockchain → ChainResult
  | ok : Blockchain → ChainResult
deriving DecidableEq

/-! Association-list operations mirroring the `HashMap` calls used by the
source. -/

def mapLookup (m : UtxoMap) (k : Nat) : Option (Bool × TransactionOutput) :=
  (m.find? (fun e => e.1 == k)).map (fun e => e.2)

def mapContains (m : UtxoMap) (k : Nat) : Bool :=
  (mapLookup m k).isSome

/-- Source: `entry(k).and_modify(f)`: modifies the entry at `k` when present. -/
def mapAdjust (m : UtxoMap) (k : Nat)
    (f : Bool × TransactionOutput → Bool × TransactionOutput) : UtxoMap :=
  m.map (fun e => if e.1 = k then (k, f e.2) else e)

/-- Source: `insert(k, v)`: replaces the entry at `k` or appends a new one. -/
def mapInsert (m : UtxoMap) (k : Nat) (v : Bool × TransactionOutput) : UtxoMap :=
  if mapContains m k then m.map (fun e => if e.1 = k then (k, v) else e)
  else m ++ [(k, v)]

def mapRemove (m : UtxoMap) (k : Nat) : UtxoMap :=
  m.filter (fun e => ! (e.1 == k))

/-- Checked `u64` addition (overflow aborts). -/
def u64add : Option Nat → Nat → Option Nat
  | none, _ => none
  | some a, b => if a + b < U64LIMIT then some (a + b) else none

/-- Checked `u64` `.sum()` (overflow aborts). -/
def u64sum (l : List Nat) : Option Nat :=
  l.foldl u64add (some 0)

/-- Source: `Hash::matches_target`: `self.0 <= target`. -/
def matchesTarget (h target : Nat) : Bool :=
  h ≤ target

/-! MerkleRoot (src/lib/src/util.rs).  One folding pass over a layer:
`chunks(2)` with `pair.get(1).ok_or(..)`, so an odd layer fails. -/

def merkleStep (hp : Nat → Nat → Nat) : List Nat → Option (List Nat)
  | [] => some []
  | [_] => none
  | a :: b :: rest => (merkleStep hp rest).map (fun l => hp a b :: l)

/-- The `while layer.len() > 1` loop, with fuel (the layer count never
exceeds the initial length). -/
def merkleLoopFuel (hp : Nat → Nat → Nat) : Nat → List Nat → Option Nat
  | 0, _ => none
  | _ + 1, [] => none
  | _ + 1, [x] => some x
  | fuel + 1, a :: b :: rest =>
    match merkleStep hp (a :: b :: rest) with
    | none => none
    | some l2 => merkleLoopFuel hp fuel l2

/-- Source: `MerkleRoot::calculate`. -/
def merkleCalculate (M : HashModel) (txs : List Transaction) : Option Nat :=
  if txs.isEmpty then none
  else merkleLoopFuel M.pairHash txs.length (txs.map M.txHash)

/-- Modelled from the spec (claim C4's algorithm): one duplicate-last folding
pass, in which a layer of odd length pairs its final element with itself. -/
def specPairStep (hp : Nat → Nat → Nat) : List Nat → List Nat
  | [] => []
  | [a] => [hp a a]
  | a :: b :: rest => hp a b :: specPairStep hp rest

/-- Modelled from the spec (claim C4's algorithm): the duplicate-last folding
loop, with fuel. -/
def specMerkleLoopFuel (hp : Nat → Nat → Nat) : Nat → List Nat → Option Nat
  | 0, _ => none
  | _ + 1, [] => none
  | _ + 1, [x] => some x
  | fuel + 1, a :: b :: rest =>
    specMerkleLoopFuel hp fuel (specPairStep hp (a :: b :: rest))

/-- Modelled from the spec (claim C4's algorithm): duplicate-last Merkle
root of a transaction list. -/
def specMerkleCalculate (M : HashModel) (txs : List Transaction) : Option Nat :=
  if txs.isEmpty then none
  else specMerkleLoopFuel M.pairHash txs.length (txs.map M.txHash)

/-! BlockHeader::mine (src/lib/src/types/block.rs lines 186-206). -/

/-- One nonce attempt: `checked_add(1)`, wrapping to zero and refreshing the
timestamp to the wall clock `now` on overflow. -/
def mineStep (hdr : BlockHeader) (now : Int) : BlockHeader :=
  if hdr.nonce = U64MAX then { hdr with nonce := 0, timestamp := now }
  else { hdr with nonce := hdr.nonce + 1 }

/-- The `for _ in 0..steps` loop.  Note the source returns `Ok(true)` even
when the budget is exhausted without a solution. -/
def mineLoop (M : HashModel) (now : Int) : Nat → BlockHeader → Bool × BlockHeader
  | 0, hdr => (true, hdr)
  | steps + 1, hdr =>
    let hdr2 := mineStep hdr now
    if matchesTarget (M.headerHash hdr2) hdr2.target then (true, hdr2)
    else mineLoop M now steps hdr2

/-- Source: `BlockHeader::mine`. -/
def mine (M : HashModel) (hdr : BlockHeader) (steps : Nat) (now : Int) :
    Bool × BlockHeader :=
  if matchesTarget (M.headerHash hdr) hdr.target then (true, hdr)
  else mineLoop M now steps hdr

/-! Block validation (src/lib/src/types/block.rs). -/

/-- Source: `Σ output.value` over a `u64` sum. -/
def outputsTotal (outs : List TransactionOutput) : Option Nat :=
  u64sum (outs.map (fun o => o.value))

/-- Source: `calculate_miner_fees`: inner loop over one transaction's inputs,
accumulating the deduplicating `inputs` map. -/
def feesInputsLoop (utxos : UtxoMap) :
    List TransactionInput → List (Nat × TransactionOutput) →
    Checked (List (Nat × TransactionOutput))
  | [], acc => .ok acc
  | i :: rest, acc =>
    match mapLookup utxos i.prev_transaction_output_hash with
    | none => .err .InvalidTransaction
    | some prev =>
      if (acc.find? (fun e => e.1 == i.prev_transaction_output_hash)).isSome then
        .err .InvalidTransaction
      else feesInputsLoop utxos rest (acc ++ [(i.prev_transaction_output_hash, prev.2)])

/-- Source: `calculate_miner_fees`: inner loop over one transaction's outputs,
accumulating the deduplicating `outputs` map keyed by `output.hash()`. -/
def feesOutputsLoop (M : HashModel) :
    List TransactionOutput → List (Nat × TransactionOutput) →
    Checked (List (Nat × TransactionOutput))
  | [], acc => .ok acc
  | o :: rest, acc =>
    if (acc.find? (fun e => e.1 == M.outputHash o)).isSome then
      .err .InvalidTransaction
    else feesOutputsLoop M rest (acc ++ [(M.outputHash o, o)])

/-- Source: `calculate_miner_fees`: loop over `transactions.iter().skip(1)`. -/
def feesTxLoop (M : HashModel) (utxos : UtxoMap) :
    List Transaction → List (Nat × TransactionOutput) →
    List (Nat × TransactionOutput) →
    Checked (List (Nat × TransactionOutput) × List (Nat × TransactionOutput))
  | [], iAcc, oAcc => .ok (iAcc, oAcc)
  | t :: rest, iAcc, oAcc =>
    match feesInputsLoop utxos t.inputs iAcc with
    | .panic => .panic
    | .err e => .err e
    | .ok iAcc2 =>
      match feesOutputsLoop M t.outputs oAcc with
      | .panic => .panic
      | .err e => .err e
      | .ok oAcc2 => feesTxLoop M utxos rest iAcc2 oAcc2

/-- Source: `Block::calculate_miner_fees`.  The final `input_value - output_value`
is a `u64` subtraction: underflow aborts. -/
def calculateMinerFees (M : HashModel) (utxos : UtxoMap) (b : Block) :
    Checked Nat :=
  match feesTxLoop M utxos b.transactions.tail [] [] with
  | .panic => .panic
  | .err e => .err e
  | .ok (iAcc, oAcc) =>
    match u64sum (iAcc.map (fun e => e.2.value)),
          u64sum (oAcc.map (fun e => e.2.value)) with
    | some iv, some ov => if iv < ov then .panic else .ok (iv - ov)
    | _, _ => .panic

/-- Source: `Block::calcualte_block_reward`.  The exponent is `(h / 210) as u32`
(truncating cast) and `2u64.pow` aborts when it is `≥ 64`. -/
def blockReward (height : Nat) : Checked Nat :=
  let e := height / HALVING_INTERVAL % 2 ^ 32
  if e ≥ 64 then .panic
  else .ok (INITIAL_REWARD * 10 ^ 8 / 2 ^ e)

/-- Source: `Block::verify_coinbase_transaction`. -/
def verifyCoinbaseTransaction (M : HashModel) (b : Block) (height : Nat)
    (utxos : UtxoMap) : Checked Unit :=
  match b.transactions.head? with
  | none => .err .InvalidBlock
  | some cb =>
    if cb.inputs.isEmpty || cb.outputs.isEmpty then .err .InvalidTransaction
    else
      match calculateMinerFees M utxos b with
      | .panic => .panic
      | .err e => .err e
      | .ok fees =>
        match blockReward height with
        | .panic => .panic
        | .err e => .err e
        | .ok reward =>
          match outputsTotal cb.outputs with
          | none => .panic
          | some total =>
            if reward + fees ≥ U64LIMIT then .panic
            else if total ≠ reward + fees then .err .InvalidTransaction
            else .ok ()

/-- Source: `verify_transactions`: per-input body of the inner closure, threading the
deduplicating `inputs` map (only its key set is observable) and collecting
the referenced values. -/
def verifyInputsLoop (M : HashModel) (utxos : UtxoMap) :
    List TransactionInput → List Nat → Checked (List Nat × List Nat)
  | [], seen => .ok (seen, [])
  | i :: rest, seen =>
    match mapLookup utxos i.prev_transaction_output_hash with
    | none => .err .InvalidTransaction
    | some prev =>
      if i.prev_transaction_output_hash ∈ seen then .err .InvalidTransaction
      else if ! M.sigVerify i.signature i.prev_transaction_output_hash prev.2.pubkey then
        .err .InvalidSignature
      else
        match verifyInputsLoop M utxos rest (seen ++ [i.prev_transaction_output_hash]) with
        | .panic => .panic
        | .err e => .err e
        | .ok (seen2, vals) => .ok (seen2, prev.2.value :: vals)

/-- Source: `verify_transactions`: loop over `transactions.iter().skip(1)`. -/
def verifyTxsLoop (M : HashModel) (utxos : UtxoMap) :
    List Transaction → List Nat → Checked Unit
  | [], _ => .ok ()
  | t :: rest, seen =>
    match verifyInputsLoop M utxos t.inputs seen with
    | .panic => .panic
    | .err e => .err e
    | .ok (seen2, vals) =>
      match u64sum vals, outputsTotal t.outputs with
      | some iv, some ov =>
        if iv < ov then .err .InvalidTransaction
        else verifyTxsLoop M utxos rest seen2
      | _, _ => .panic

/-- Source: `Block::verify_transactions`.  The coinbase verification result is
discarded (`let _ = ...`), but an abort inside it still aborts. -/
def verifyTransactions (M : HashModel) (b : Block) (height : Nat)
    (utxos : UtxoMap) : Checked Unit :=
  if b.transactions.isEmpty then .err .InvalidTransaction
  else
    match verifyCoinbaseTransaction M b height utxos with
    | .panic => .panic
    | _ => verifyTxsLoop M utxos b.transactions.tail []

/-! Blockchain operations (src/lib/src/types/blockchain.rs). -/

/-- The validation prefix of `Blockchain::add_block` (everything before the
first mutation). -/
def validateBlock (M : HashModel) (bc : Blockchain) (b : Block) : Checked Unit :=
  if bc.blocks.isEmpty then
    if b.header.prev_block_hash ≠ 0 then .err .InvalidBlock else .ok ()
  else
    match bc.blocks.getLast? with
    | none => .err .InvalidBlock
    | some prev =>
      if b.header.prev_block_hash ≠ M.blockHash prev then .err .InvalidHash
      else if ! matchesTarget (M.headerHash b.header) b.header.target then
        .err .InvalidBlock
      else
        match merkleCalculate M b.transactions with
        | none => .err .InvalidMerkleRoot
        | some mr =>
          if mr ≠ b.header.merkle_root then .err .InvalidMerkleRoot
          else if b.header.timestamp ≤ prev.header.timestamp then .err .InvalidBlock
          else verifyTransactions M b bc.blocks.length bc.utxos

/-- The `BigDecimal` scaling of `try_adjust_target`, landed back in the
integers: `floor(target · Δt / 500)`, then the `[target/4, target·4]`
clamp, then the `MIN_TARGET` cap. -/
def scaledTarget (target dtN : Nat) : Nat :=
  target * dtN / (IDEAL_BLOCK_TIME * DIFFICULTY_UPDATE_INTERVAL)

/-- The scaled target clamped to `[target/4, target·4]` (Rust `clamp`) and
capped by `MIN_TARGET` (`.min`). -/
def clampedTarget (target dtN : Nat) : Nat :=
  min (max (target / 4) (min (scaledTarget target dtN) (target * 4))) MIN_TARGET

/-- The target `try_adjust_target` leaves in place: unchanged when the
chain is empty or its length is not a multiple of the interval, otherwise
the clamped scaled value.  `none` models a `U256::from_str_radix` /
overflow abort (negative Δt, or an intermediate value `≥ 2^256`). -/
def tryAdjustTargetValue (bc : Blockchain) : Option Nat :=
  if bc.blocks.isEmpty then some bc.target
  else if bc.blocks.length % DIFFICULTY_UPDATE_INTERVAL ≠ 0 then some bc.target
  else
    match bc.blocks.get? (bc.blocks.length - DIFFICULTY_UPDATE_INTERVAL),
          bc.blocks.getLast? with
    | some first, some lastB =>
      if lastB.header.timestamp - first.header.timestamp < 0 then none
      else if scaledTarget bc.target (lastB.header.timestamp - first.header.timestamp).toNat
          ≥ U256LIMIT then none
      else if bc.target * 4 ≥ U256LIMIT then none
      else some (clampedTarget bc.target
        (lastB.header.timestamp - first.header.timestamp).toNat)
    | _, _ => none

/-- Source: `Blockchain::try_adjust_target`.  Runs before the new block is pushed,
so `blocks` is still the pre-append list. -/
def tryAdjustTarget (bc : Blockchain) : Option Blockchain :=
  (tryAdjustTargetValue bc).map (fun t => { bc with target := t })

/-- The mempool after `add_block` drops every transaction whose hash occurs
in the block. -/
def filteredMempool (M : HashModel) (bc : Blockchain) (b : Block) :
    List (Int × Transaction) :=
  bc.mempool.filter (fun e => ! (b.transactions.map M.txHash).contains (M.txHash e.2))

/-- The mutation suffix of `Blockchain::add_block`: drop the block's
transactions from the mempool, retarget, push the block. -/
def commitBlock (M : HashModel) (bc : Blockchain) (b : Block) : ChainResult :=
  match tryAdjustTarget { bc with mempool := filteredMempool M bc b } with
  | none => .panic
  | some bc2 => .ok { bc2 with blocks := bc2.blocks ++ [b] }

/-- Source: `Blockchain::add_block`. -/
def addBlock (M : HashModel) (bc : Blockchain) (b : Block) : ChainResult :=
  match validateBlock M bc b with
  | .panic => .panic
  | .err e => .err e bc
  | .ok () => commitBlock M bc b

/-- Source: `add_to_mempool` step 1: every input known, no duplicate input. -/
def validateInputs (utxos : UtxoMap) :
    List TransactionInput → List Nat → Checked Unit
  | [], _ => .ok ()
  | i :: rest, seen =>
    if ! mapContains utxos i.prev_transaction_output_hash then .err .InvalidTransaction
    else if i.prev_transaction_output_hash ∈ seen then .err .InvalidTransaction
    else validateInputs utxos rest (i.prev_transaction_output_hash :: seen)

/-- Unreserve the UTXOs referenced by a list of inputs. -/
def unreserveAll (utxos : UtxoMap) (inputs : List TransactionInput) : UtxoMap :=
  inputs.foldl
    (fun m i => mapAdjust m i.prev_transaction_output_hash (fun bv => (false, bv.2))) utxos

/-- Mark the UTXOs referenced by a list of inputs as reserved. -/
def reserveAll (utxos : UtxoMap) (inputs : List TransactionInput) : UtxoMap :=
  inputs.foldl
    (fun m i => mapAdjust m i.prev_transaction_output_hash (fun bv => (true, bv.2))) utxos

/-- The conflict search of `add_to_mempool`: a mempool entry whose
transaction has an output hashing to `h`. -/
def producesOutput (M : HashModel) (h : Nat) (e : Int × Transaction) : Bool :=
  e.2.outputs.any (fun o => M.outputHash o == h)

/-- One iteration of the conflict-eviction loop of `add_to_mempool`. -/
def evictStep (M : HashModel) (bc : Blockchain) (i : TransactionInput) : Blockchain :=
  match mapLookup bc.utxos i.prev_transaction_output_hash with
  | some (true, _) =>
    match bc.mempool.findIdx? (producesOutput M i.prev_transaction_output_hash) with
    | some idx =>
      match bc.mempool.get? idx with
      | some e =>
        { bc with utxos := unreserveAll bc.utxos e.2.inputs,
                  mempool := bc.mempool.eraseIdx idx }
      | none => bc
    | none =>
      { bc with
        utxos := mapAdjust bc.utxos i.prev_transaction_output_hash (fun bv => (false, bv.2)) }
  | _ => bc

/-- Values of the UTXOs referenced by the inputs; a missing entry is a failed
`.expect` (abort). -/
def lookupValues (utxos : UtxoMap) : List TransactionInput → Option (List Nat)
  | [] => some []
  | i :: rest =>
    match mapLookup utxos i.prev_transaction_output_hash with
    | none => none
    | some bv =>
      match lookupValues utxos rest with
      | none => none
      | some vals => some (bv.2.value :: vals)

/-- Source: `Σ` of the referenced input values (`u64`, overflow aborts). -/
def inputsTotal (utxos : UtxoMap) (inputs : List TransactionInput) : Option Nat :=
  match lookupValues utxos inputs with
  | none => none
  | some vals => u64sum vals

/-- The `sort_by_key` key of `add_to_mempool`:
`miner_fee = inputs - outputs` (`u64` subtraction, underflow aborts). -/
def minerFee (utxos : UtxoMap) (t : Transaction) : Option Nat :=
  match inputsTotal utxos t.inputs, outputsTotal t.outputs with
  | some iv, some ov => if iv < ov then none else some (iv - ov)
  | _, _ => none

/-- Pair every mempool entry with its miner fee (a failed fee computation is
an abort). -/
def attachFees (utxos : UtxoMap) :
    List (Int × Transaction) → Option (List ((Int × Transaction) × Nat))
  | [] => some []
  | e :: rest =>
    match minerFee utxos e.2 with
    | none => none
    | some f =>
      match attachFees utxos rest with
      | none => none
      | some ks => some ((e, f) :: ks)

/-- Ascending order on the attached miner fee. -/
def feeRel (a b : (Int × Transaction) × Nat) : Prop :=
  a.2 ≤ b.2

instance : DecidableRel feeRel :=
  fun a b => Nat.decLe a.2 b.2

instance : IsTotal ((Int × Transaction) × Nat) feeRel :=
  ⟨fun a b => Nat.le_total a.2 b.2⟩

instance : IsTrans ((Int × Transaction) × Nat) feeRel :=
  ⟨fun _ _ _ => Nat.le_trans⟩

/-- Source: `self.mempool.sort_by_key(miner_fee)`: a stable sort ascending by fee. -/
def sortMempool (utxos : UtxoMap) (mp : List (Int × Transaction)) :
    Option (List (Int × Transaction)) :=
  (attachFees utxos mp).map (fun ks => (List.insertionSort feeRel ks).map (fun p => p.1))

/-- The conflict-eviction loop of `add_to_mempool` over all inputs. -/
def evictAll (M : HashModel) (bc : Blockchain) (tx : Transaction) : Blockchain :=
  tx.inputs.foldl (evictStep M) bc

/-- The state after the eviction loop and the reservation of the new
transaction's inputs. -/
def reservedState (M : HashModel) (bc : Blockchain) (tx : Transaction) : Blockchain :=
  { evictAll M bc tx with utxos := reserveAll (evictAll M bc tx).utxos tx.inputs }

/-- Source: `Blockchain::add_to_mempool`. -/
def addToMempool (M : HashModel) (bc : Blockchain) (now : Int) (tx : Transaction) :
    ChainResult :=
  match validateInputs bc.utxos tx.inputs [] with
  | .panic => .panic
  | .err e => .err e bc
  | .ok () =>
    match inputsTotal (evictAll M bc tx).utxos tx.inputs, outputsTotal tx.outputs with
    | some iv, some ov =>
      if iv < ov then .err .InvalidTransaction (evictAll M bc tx)
      else
        match sortMempool (reservedState M bc tx).utxos
            ((reservedState M bc tx).mempool ++ [(now, tx)]) with
        | none => .panic
        | some sorted => .ok { reservedState M bc tx with mempool := sorted }
    | _, _ => .panic

/-- Source: `Blockchain::cleanup_mempool`. -/
def cleanupMempool (bc : Blockchain) (now : Int) : Blockchain :=
  let isOld : Int × Transaction → Bool :=
    fun e => decide ((MAX_MEMPOOL_TRANSACTION_AGE : Int) < now - e.1)
  let removed := bc.mempool.filter isOld
  { bc with
    mempool := bc.mempool.filter (fun e => ! isOld e),
    utxos := unreserveAll bc.utxos ((removed.map (fun e => e.2.inputs)).flatten) }

/-- Source: `rebuild_utxos`: effect of one transaction (remove spent entries, then
insert every output under the producing transaction's hash). -/
def applyTx (M : HashModel) (m : UtxoMap) (t : Transaction) : UtxoMap :=
  let m1 := t.inputs.foldl (fun acc i => mapRemove acc i.prev_transaction_output_hash) m
  t.outputs.foldl (fun acc o => mapInsert acc (M.txHash t) (false, o)) m1

/-- Source: `Blockchain::rebuild_utxos` (note: it does not clear the map first). -/
def rebuildUtxos (M : HashModel) (bc : Blockchain) : Blockchain :=
  { bc with utxos := bc.blocks.foldl (fun m b => b.transactions.foldl (applyTx M) m) bc.utxos }

/-- Source: `Blockchain::new`. -/
def Blockchain.new : Blockchain :=
  { utxos := [], target := MIN_TARGET, blocks := [], mempool := [] }

/-! Reachability by the public chain-state operations.  Error results are
included: the source mutates in place, so the state carried by an error
outcome is live. -/

inductive Reachable (M : HashModel) : Blockchain → Prop where
  | init : Reachable M Blockchain.new
  | addBlockOk {bc b bc2} : Reachable M bc → addBlock M bc b = .ok bc2 →
      Reachable M bc2
  | addBlockErr {bc b e bc2} : Reachable M bc → addBlock M bc b = .err e bc2 →
      Reachable M bc2
  | addToMempoolOk {bc now tx bc2} : Reachable M bc →
      addToMempool M bc now tx = .ok bc2 → Reachable M bc2
  | addToMempoolErr {bc now tx e bc2} : Reachable M bc →
      addToMempool M bc now tx = .err e bc2 → Reachable M bc2
  | cleanup {bc} (now : Int) : Reachable M bc → Reachable M (cleanupMempool bc now)
  | rebuild {bc} : Reachable M bc → Reachable M (rebuildUtxos M bc)

/-! Invariant statements used by the claims. -/

/-- Transaction `t` spends the UTXO keyed `h`. -/
def spendsHash (t : Transaction) (h : Nat) : Prop :=
  ∃ i ∈ t.inputs, i.prev_transaction_output_hash = h

instance (t : Transaction) (h : Nat) : Decidable (spendsHash t h) := by
  unfold spendsHash
  infer_instance

/-- The reservation invariant of claim C2: an entry is reserved exactly when
some mempool transaction spends it. -/
def reservationInv (bc : Blockchain) : Prop :=
  ∀ e ∈ bc.utxos, (e.2.1 = true ↔ ∃ m ∈ bc.mempool, spendsHash m.2 e.1)

instance (bc : Blockchain) : Decidable (reservationInv bc) := by
  unfold reservationInv
  infer_instance

/-- Fee comparison on possibly-aborting fee computations: constrains only
pairs whose fees are both defined. -/
def feeLE : Option Nat → Option Nat → Bool
  | some a, some b => a ≤ b
  | _, _ => true

/-- The mempool ordering invariant of claim C9, read against the current
UTXO set. -/
def mempoolFeeSorted (bc : Blockchain) : Prop :=
  bc.mempool.Pairwise (fun a b => feeLE (minerFee bc.utxos a.2) (minerFee bc.utxos b.2) = true)

instance (bc : Blockchain) : Decidable (mempoolFeeSorted bc) :=
  List.instDecidablePairwise _

/-- Hypothesis predicate for claim C3's amended statement: none of the
transaction's referenced UTXOs is currently reserved. -/
def noReservedInput (bc : Blockchain) (tx : Transaction) : Prop :=
  ∀ i ∈ tx.inputs,
    (mapLookup bc.utxos i.prev_transaction_output_hash).all (fun bv => ! bv.1) = true

instance (bc : Blockchain) (tx : Transaction) : Decidable (noReservedInput bc tx) := by
  unfold noReservedInput
  infer_instance

/-- Hypothesis predicate for claim C2's amended statement: no mempool
transaction produces an output whose hash equals one of the new
transaction's input references, so the conflict search never finds a
transaction to evict. -/
def noMempoolProducer (M : HashModel) (bc : Blockchain) (tx : Transaction) : Prop :=
  ∀ i ∈ tx.inputs,
    bc.mempool.all (fun e => ! producesOutput M i.prev_transaction_output_hash e) = true

instance (M : HashModel) (bc : Blockchain) (tx : Transaction) :
    Decidable (noMempoolProducer M bc tx) := by
  unfold noMempoolProducer
  infer_instance

/-- The retarget value of claim C6's amended statement:
`floor(target · Δt / (IDEAL_BLOCK_TIME · N))` clamped to
`[target/4, target·4]` and capped by `MIN_TARGET`. -/
def retargetExpected (bc : Blockchain) (first lastB : Block) : Nat :=
  clampedTarget bc.target (lastB.header.timestamp - first.header.timestamp).toNat

/-! Concrete hash models and states for the scenario theorems. -/

/-- Scenario hash for transactions: the unique id of the first output. -/
def txTag (t : Transaction) : Nat :=
  (t.outputs.headD ⟨0, 0, 0⟩).unique_id

/-- Scenario hash model: output hashes are the unique ids, block hashes are
the header nonce, header hashes are `0` (matching every target). -/
def M1 : HashModel :=
  { txHash := txTag
    outputHash := fun o => o.unique_id
    headerHash := fun _ => 0
    blockHash := fun b => b.header.nonce
    pairHash := fun a b => a + b
    sigVerify := fun _ _ _ => true }

/-- Scenario hash model whose header hash (`10`) exceeds the targets used
with it, so no nonce attempt ever matches. -/
def M8 : HashModel :=
  { M1 with headerHash := fun _ => 10 }

/-- A 50-satoshi output. -/
def oU : TransactionOutput := ⟨50, 100, 7⟩

/-- A 20-satoshi output. -/
def o1 : TransactionOutput := ⟨20, 200, 8⟩

/-- A 10-satoshi output. -/
def o2 : TransactionOutput := ⟨10, 300, 9⟩

/-- A 60-satoshi output (worth more than `oU`). -/
def o3 : TransactionOutput := ⟨60, 400, 9⟩

/-- Input-free producing transaction; `txTag T0 = 100`. -/
def T0 : Transaction := ⟨[], [oU]⟩

/-- Spends `T0`'s UTXO (key `100`), miner fee 30. -/
def T1 : Transaction := ⟨[⟨100, 0⟩], [o1]⟩

/-- Also spends key `100`, miner fee 40. -/
def T2 : Transaction := ⟨[⟨100, 1⟩], [o2]⟩

/-- Spends key `100` but outputs more than the input is worth. -/
def T3 : Transaction := ⟨[⟨100, 2⟩], [o3]⟩

/-- A chain state holding the single unreserved UTXO produced by `T0`. -/
def bcC1 : Blockchain := ⟨[(100, (false, oU))], MIN_TARGET, [], []⟩

/-- State `bcC1` after `add_to_mempool(T1)`. -/
def bcC1a : Blockchain := ⟨[(100, (true, oU))], MIN_TARGET, [], [(5, T1)]⟩

/-- State `bcC1a` after `add_to_mempool(T2)`: both conflicting spenders coexist. -/
def bcC1b : Blockchain := ⟨[(100, (true, oU))], MIN_TARGET, [], [(5, T1), (6, T2)]⟩

/-- State `bcC1a` after the failing `add_to_mempool(T3)`: the reservation of key
`100` has been cleared although the call errored. -/
def bcC3after : Blockchain := ⟨[(100, (false, oU))], MIN_TARGET, [], [(5, T1)]⟩

/-- Genesis block carrying `T0` (prev hash `0`, merkle root `txTag T0`). -/
def B0 : Block := ⟨⟨1, 0, 0, 100, MIN_TARGET⟩, [T0]⟩

/-- Second block carrying `T1`; `prev_block_hash = M1.blockHash B0 = 0`. -/
def B1 : Block := ⟨⟨2, 1, 0, 200, MIN_TARGET⟩, [T1]⟩

/-- Chain after the genesis append. -/
def s1 : Blockchain := ⟨[], MIN_TARGET, [B0], []⟩

/-- After `rebuild_utxos`. -/
def s2 : Blockchain := ⟨[(100, (false, oU))], MIN_TARGET, [B0], []⟩

/-- After `add_to_mempool(T1)`. -/
def s3 : Blockchain := ⟨[(100, (true, oU))], MIN_TARGET, [B0], [(10, T1)]⟩

/-- After `add_block(B1)`: `T1` left the mempool, its reservation did not. -/
def s4C2 : Blockchain := ⟨[(100, (true, oU))], MIN_TARGET, [B0, B1], []⟩

/-- Genesis block whose header hash (`10` under `M8`) exceeds its target
`5`: accepted on an empty chain without a proof-of-work check. -/
def B0bad : Block := ⟨⟨1, 0, 0, 100, 5⟩, [T0]⟩

/-- The reachable one-block chain carrying `B0bad`. -/
def s8 : Blockchain := ⟨[], MIN_TARGET, [B0bad], []⟩

/-- Header for the mining scenario (target 5, below `M8`'s header hash). -/
def hC5 : BlockHeader := ⟨1, 0, 0, 0, 5⟩

/-- The `i`-th block of the C6 chain: timestamps one second apart, nonce
`i`, previous hash `i - 1` (the model block hash of its predecessor). -/
def blk6 (i : Nat) : Block :=
  ⟨⟨(i + 1 : Int), i, if i = 0 then 0 else i - 1, 100, MIN_TARGET⟩, [T0]⟩

/-- Fifty blocks spaced one second apart. -/
def bc50 : Blockchain := ⟨[], MIN_TARGET, (List.range 50).map blk6, []⟩

/-- The fifty-first block. -/
def b51 : Block := blk6 50

/-- State `bc50` after `add_block(b51)`: the target dropped to `MIN_TARGET / 4 =
2^238 - 1` although the post-append length `51` is not a multiple of 50. -/
def bc51 : Blockchain :=
  ⟨[], 2 ^ 238 - 1, (List.range 50).map blk6 ++ [b51], []⟩

/-- Block whose first transaction has no inputs, for the C10 witness. -/
def bC10 : Block := ⟨⟨1, 0, 0, 0, MIN_TARGET⟩, [T0]⟩

/-! An injective transaction hash, used to discharge the collision-freedom
hypothesis of claim C9: transactions are encoded with `Nat.pair`. -/

/-- Injective encoding of a list of naturals. -/
def encList (l : List Nat) : Nat :=
  l.foldr (fun a acc => Nat.pair a acc + 1) 0

/-- Injective encoding of a transaction input. -/
def encInput (i : TransactionInput) : Nat :=
  Nat.pair i.prev_transaction_output_hash i.signature

/-- Injective encoding of a transaction output. -/
def encOutput (o : TransactionOutput) : Nat :=
  Nat.pair o.value (Nat.pair o.unique_id o.pubkey)

/-- Injective encoding of a transaction. -/
def encTx (t : Transaction) : Nat :=
  Nat.pair (encList (t.inputs.map encInput)) (encList (t.outputs.map encOutput))

/-- Hash model with an injective (collision-free) transaction hash. -/
def MInj : HashModel :=
  { txHash := encTx
    outputHash := encOutput
    headerHash := fun _ => 0
    blockHash := fun b => b.header.nonce
    pairHash := fun a b => Nat.pair a b
    sigVerify := fun _ _ _ => true }

/-- Candidate genesis block with a nonzero previous hash (rejected on an
empty chain). -/
def bBadGenesis : Block := ⟨⟨1, 0, 5, 0, 0⟩, []⟩

/-- Genesis block with nonce 3, so its model block hash `3` is nonzero. -/
def Bn0 : Block := ⟨⟨1, 3, 0, 100, MIN_TARGET⟩, [T0]⟩

/-- One-block chain carrying `Bn0`. -/
def s1n : Blockchain := ⟨[], MIN_TARGET, [Bn0], []⟩

/-- Candidate second block with `prev_block_hash = 0` (zero) proposed on
`s1n`. -/
def bPrevZero : Block := ⟨⟨2, 0, 0, 100, MIN_TARGET⟩, [T0]⟩

/-- The stored output of every UTXO entry is pinned by its key: some
transaction hashes to the key and the entry holds that transaction's last
output.  Every entry `rebuild_utxos` writes has this shape, and no operation
ever changes a stored output. -/
def pinned (M : HashModel) (m : UtxoMap) : Prop :=
  ∀ e ∈ m, ∃ t : Transaction,
    M.txHash t = e.1 ∧ ∃ o, t.outputs.getLast? = some o ∧ e.2.2 = o

/-- Mempool entries `a`, `b` are fee-ordered against every pinned UTXO map
in which both fees are defined.  Under an injective transaction hash the
fee of a transaction is the same in every pinned map, so this property is
insensitive to UTXO rebuilds. -/
def feeOrdered (M : HashModel) (a b : Int × Transaction) : Prop :=
  ∀ m : UtxoMap, pinned M m → ∀ fa fb,
    minerFee m a.2 = some fa → minerFee m b.2 = some fb → fa ≤ fb

/-- Strengthened mempool ordering invariant carried through the
reachability induction for claim C9. -/
def mempoolOrdered (M : HashModel) (bc : Blockchain) : Prop :=
  bc.mempool.Pairwise (feeOrdered M)

/-! ### Claim C1 -/

/-- Claim C1 (code bug evaluation).  The claim says that after
`add_to_mempool(T1)` and `add_to_mempool(T2)` both succeed for two
transactions spending the same UTXO, `T1` has been evicted.  On the source,
the conflict search looks for a mempool transaction that *produces* an
output hashing to the contested key (`output.hash() == input.hash`), not for
the transaction that spends it, so the earlier spender `T1` stays: both
calls succeed, both transactions sit in the mempool, and the key stays
reserved.  This contradicts the source's own comment "let the latest one
win, and evict the previous one". -/
theorem c1_conflicting_spender_not_evicted :
    addToMempool M1 bcC1 5 T1 = .ok bcC1a ∧
    addToMempool M1 bcC1a 6 T2 = .ok bcC1b ∧
    (5, T1) ∈ bcC1b.mempool ∧ (6, T2) ∈ bcC1b.mempool ∧
    mapLookup bcC1b.utxos 100 = some (true, oU) :=
  ⟨by decide, by decide, by decide, by decide, by decide⟩

/-! ### Claim C3, counterexample -/

/-- Claim C3 counterexample.  `add_to_mempool(T3)` fails the fee check
(`Σ inputs < Σ outputs`) *after* the conflict-eviction loop has already
unreserved the contested UTXO `100`, so the call returns
`InvalidTransaction` with a mutated state: the reservation of key `100`
(held on behalf of the mempool transaction `T1`) is gone. -/
theorem c3_error_mutates_state :
    addToMempool M1 bcC1a 7 T3 = .err .InvalidTransaction bcC3after ∧
    mapLookup bcC1a.utxos 100 = some (true, oU) ∧
    mapLookup bcC3after.utxos 100 = some (false, oU) ∧
    bcC3after ≠ bcC1a :=
  ⟨by decide, by decide, by decide, by decide⟩

/-! ### Claim C4, counterexample -/

/-- Claim C4 counterexample.  `MerkleRoot::calculate` pairs layers with
`chunks(2)` and fails (`pair.get(1).ok_or(..)`) on a chunk of one element,
so a three-transaction list returns `none` — not the duplicate-last fold
the claim prescribes (shown alongside, per the spec's algorithm). -/
theorem c4_three_transactions_give_none :
    merkleCalculate M1 [T0, T1, T2] = none ∧
    ([T0, T1, T2] : List Transaction) ≠ [] ∧
    specMerkleCalculate M1 [T0, T1, T2] =
      some (M1.pairHash (M1.pairHash (M1.txHash T0) (M1.txHash T1))
        (M1.pairHash (M1.txHash T2) (M1.txHash T2))) :=
  ⟨by decide, by decide, by decide⟩

/-! ### Claim C5 -/

/-- Claim C5 (code bug evaluation).  `BlockHeader::mine` returns `Ok(true)`
both on success and when the step budget is exhausted, so the boolean does
not distinguish solved from unsolved: under `M8` the header hash `10` never
matches target `5`, yet `mine` reports `true` after every failed attempt.
The nonce-overflow behaviour the claim describes (wrap to zero, refresh the
timestamp) is as stated. -/
theorem c5_mine_reports_solved_without_solution :
    matchesTarget (M8.headerHash hC5) hC5.target = false ∧
    mine M8 hC5 2 99 = (true, { hC5 with nonce := 2 }) ∧
    mine M8 { hC5 with nonce := U64MAX } 1 99 =
      (true, { hC5 with nonce := 0, timestamp := 99 }) :=
  ⟨by decide, by decide, by decide⟩

/-! ### Claim C2, counterexample -/

/-- Claim C2 counterexample.  A reachable state violating the reservation
invariant: append a genesis block producing a UTXO, rebuild the UTXO set,
reserve the UTXO via `add_to_mempool(T1)`, then append a block containing
`T1`.  `add_block` removes `T1` from the mempool but never touches `utxos`,
so key `100` stays reserved with an empty mempool. -/
theorem c2_reservation_invariant_fails :
    Reachable M1 s4C2 ∧ ¬ reservationInv s4C2 := by
  have h1 : Reachable M1 s1 :=
    @Reachable.addBlockOk M1 Blockchain.new B0 s1 Reachable.init (by decide)
  have e2 : rebuildUtxos M1 s1 = s2 := by decide
  have h2 : Reachable M1 s2 := e2 ▸ Reachable.rebuild h1
  have h3 : Reachable M1 s3 :=
    @Reachable.addToMempoolOk M1 s2 10 T1 s3 h2 (by decide)
  have h4 : Reachable M1 s4C2 :=
    @Reachable.addBlockOk M1 s3 B1 s4C2 h3 (by decide)
  exact ⟨h4, by decide⟩

/-! ### Claim C8, counterexample -/

/-- Claim C8 counterexample.  On an empty chain `add_block` checks only
`prev_block_hash == Hash::zero()`, so a genesis block whose header hash
(`10` under `M8`) exceeds its own target (`5`) is accepted: the reachable
one-block chain violates the claimed proof-of-work invariant at its first
block. -/
theorem c8_genesis_pow_unchecked :
    Reachable M8 s8 ∧
    s8.blocks.map (fun b => matchesTarget (M8.headerHash b.header) b.header.target) =
      [false] :=
  ⟨@Reachable.addBlockOk M8 Blockchain.new B0bad s8 Reachable.init (by decide),
    by decide⟩

/-! ### Claim C6, counterexample -/

/-- Claim C6 counterexample.  `try_adjust_target` runs *before* the new
block is pushed, so the retarget fires when the pre-append length is a
multiple of 50 — i.e. on the fifty-first `add_block`, not the fiftieth.
Appending `b51` to a 50-block chain succeeds, leaves a post-append length of
`51` (not a multiple of 50), and still changes the target (to
`MIN_TARGET / 4`, the lower clamp, because the 50 blocks are one second
apart). -/
theorem c6_retarget_on_fifty_first_block :
    addBlock M1 bc50 b51 = .ok bc51 ∧
    bc51.blocks.length % DIFFICULTY_UPDATE_INTERVAL = 1 ∧
    bc51.target = 2 ^ 238 - 1 ∧
    bc50.target = 2 ^ 240 - 1 :=
  ⟨by decide, by decide, by decide, by decide⟩

/-! ### Claim C10 -/

/-- Claim C10 (confirmed).  For every block whose first transaction has an
empty inputs list, every UTXO map and every predicted height,
`verify_coinbase_transaction` returns `InvalidTransaction`: the guard
`coinbase_transaction.inputs.is_empty() || ... ` fires before anything else
is examined, regardless of the outputs. -/
theorem c10_inputless_first_transaction_rejected (M : HashModel) (b : Block)
    (height : Nat) (utxos : UtxoMap) (cb : Transaction) (rest : List Transaction)
    (hb : b.transactions = cb :: rest) (hin : cb.inputs = []) :
    verifyCoinbaseTransaction M b height utxos = .err .InvalidTransaction := by
  unfold verifyCoinbaseTransaction
  rw [hb]
  simp [hin]

/-- Witness for claim C10's theorem at a concrete block, height and UTXO
map. -/
theorem c10_witness :
    bC10.transactions = T0 :: [] ∧ T0.inputs = [] ∧
    verifyCoinbaseTransaction M1 bC10 3 [(100, (false, oU))] = .err .InvalidTransaction :=
  ⟨by decide, by decide,
    c10_inputless_first_transaction_rejected M1 bC10 3 [(100, (false, oU))] T0 []
      (by decide) (by decide)⟩

/-! ### Structural lemmas about the chain operations -/

theorem addBlock_ok_elim (M : HashModel) (bc : Blockchain) (b : Block)
    (bc2 : Blockchain) (hok : addBlock M bc b = .ok bc2) :
    validateBlock M bc b = .ok () ∧
    ∃ bc3, tryAdjustTarget { bc with mempool := filteredMempool M bc b } = some bc3 ∧
      bc2 = { bc3 with blocks := bc3.blocks ++ [b] } := by
  rcases hv : validateBlock M bc b with _ | e | u
  · simp only [addBlock, hv] at hok
    cases hok
  · simp only [addBlock, hv] at hok
    cases hok
  · cases u
    simp only [addBlock, hv] at hok
    rcases hta : tryAdjustTarget { bc with mempool := filteredMempool M bc b } with _ | bc3
    · simp only [commitBlock, hta] at hok
      cases hok
    · simp only [commitBlock, hta, ChainResult.ok.injEq] at hok
      exact ⟨rfl, bc3, rfl, hok.symm⟩

theorem addBlock_err_elim (M : HashModel) (bc : Blockchain) (b : Block)
    (e : BtcError) (bc2 : Blockchain) (herr : addBlock M bc b = .err e bc2) :
    bc2 = bc := by
  rcases hv : validateBlock M bc b with _ | e2 | u
  · simp only [addBlock, hv] at herr
    cases herr
  · simp only [addBlock, hv, ChainResult.err.injEq] at herr
    exact herr.2.symm
  · cases u
    simp only [addBlock, hv] at herr
    rcases hta : tryAdjustTarget { bc with mempool := filteredMempool M bc b } with _ | bc3
    · simp only [commitBlock, hta] at herr
      cases herr
    · simp only [commitBlock, hta] at herr
      cases herr

theorem tryAdjust_elim (bc bc3 : Blockchain) (h : tryAdjustTarget bc = some bc3) :
    ∃ t, tryAdjustTargetValue bc = some t ∧ bc3 = { bc with target := t } := by
  rw [tryAdjustTarget, Option.map_eq_some'] at h
  obtain ⟨t, ht, hb⟩ := h
  exact ⟨t, ht, hb.symm⟩

theorem tryAdjust_noop (bc : Blockchain)
    (h : bc.blocks = [] ∨ bc.blocks.length % DIFFICULTY_UPDATE_INTERVAL ≠ 0) :
    tryAdjustTarget bc = some bc := by
  have hv : tryAdjustTargetValue bc = some bc.target := by
    rcases h with h | h
    · simp [tryAdjustTargetValue, h]
    · by_cases he : bc.blocks.isEmpty
      · simp [tryAdjustTargetValue, he]
      · rw [tryAdjustTargetValue, if_neg (by simp [he]), if_pos h]
  rw [tryAdjustTarget, hv]
  rfl

theorem tryAdjust_fields (bc bc3 : Blockchain) (h : tryAdjustTarget bc = some bc3) :
    bc3.blocks = bc.blocks ∧ bc3.utxos = bc.utxos ∧ bc3.mempool = bc.mempool := by
  obtain ⟨t, -, hb⟩ := tryAdjust_elim bc bc3 h
  rw [hb]
  exact ⟨rfl, rfl, rfl⟩

theorem tryAdjust_retarget (bc bc3 : Blockchain) (first lastB : Block)
    (hne : ¬ bc.blocks.isEmpty = true)
    (hmod : bc.blocks.length % DIFFICULTY_UPDATE_INTERVAL = 0)
    (hf : bc.blocks.get? (bc.blocks.length - DIFFICULTY_UPDATE_INTERVAL) = some first)
    (hl : bc.blocks.getLast? = some lastB)
    (h : tryAdjustTarget bc = some bc3) :
    0 ≤ lastB.header.timestamp - first.header.timestamp ∧
    bc3.target =
      clampedTarget bc.target (lastB.header.timestamp - first.header.timestamp).toNat := by
  obtain ⟨t, hv, hb⟩ := tryAdjust_elim bc bc3 h
  rw [tryAdjustTargetValue, if_neg hne, if_neg (by simp [hmod])] at hv
  simp only [hf, hl] at hv
  by_cases hdt : lastB.header.timestamp - first.header.timestamp < 0
  · rw [if_pos hdt] at hv
    cases hv
  · rw [if_neg hdt] at hv
    by_cases hs : scaledTarget bc.target
        (lastB.header.timestamp - first.header.timestamp).toNat ≥ U256LIMIT
    · rw [if_pos hs] at hv
      cases hv
    · rw [if_neg hs] at hv
      by_cases h4 : bc.target * 4 ≥ U256LIMIT
      · rw [if_pos h4] at hv
        cases hv
      · rw [if_neg h4] at hv
        cases hv
        rw [hb]
        exact ⟨Int.not_lt.mp hdt, rfl⟩

/-! ### Claim C6, amended theorem -/

/-- Claim C6 amended (the retarget fires on the *pre-append* length, using
the pre-existing tip).  A successful `add_block` appends the block and
leaves `target` unchanged unless the chain was non-empty with
`blocks.len()` (before the append) a multiple of
`DIFFICULTY_UPDATE_INTERVAL = 50`; in that case the new target is
`floor(target · Δt / 500)` clamped to `[target/4, target·4]` and capped by
`MIN_TARGET`, where `Δt ≥ 0` spans the pre-call last block and the block 50
positions before it.  Consequently, with 50 ideally spaced blocks the
target after the 50th block is unchanged (49 is not a multiple of 50): the
first adjustment happens on the 51st append. -/
theorem c6_amended_retarget_rule (M : HashModel) (bc : Blockchain) (b : Block)
    (bc2 : Blockchain) (hok : addBlock M bc b = .ok bc2) :
    bc2.blocks = bc.blocks ++ [b] ∧
    ((bc.blocks = [] ∨ bc.blocks.length % DIFFICULTY_UPDATE_INTERVAL ≠ 0) →
      bc2.target = bc.target) ∧
    (∀ first lastB,
      bc.blocks ≠ [] → bc.blocks.length % DIFFICULTY_UPDATE_INTERVAL = 0 →
      bc.blocks.get? (bc.blocks.length - DIFFICULTY_UPDATE_INTERVAL) = some first →
      bc.blocks.getLast? = some lastB →
      bc2.target = retargetExpected bc first lastB) := by
  obtain ⟨-, bc3, hta, hbc2⟩ := addBlock_ok_elim M bc b bc2 hok
  obtain ⟨hblocks, -, -⟩ := tryAdjust_fields _ _ hta
  refine ⟨?_, ?_, ?_⟩
  · rw [hbc2]
    simpa using hblocks
  · intro h
    rw [hbc2]
    have hnoop : tryAdjustTarget { bc with mempool := filteredMempool M bc b } =
        some { bc with mempool := filteredMempool M bc b } :=
      tryAdjust_noop _ (by simpa using h)
    rw [hnoop] at hta
    cases hta
    rfl
  · intro first lastB hne hmod hf hl
    rw [hbc2]
    have hne2 : ¬ ({ bc with mempool := filteredMempool M bc b } :
        Blockchain).blocks.isEmpty = true := by
      simpa [List.isEmpty_iff] using hne
    have hr := tryAdjust_retarget _ bc3 first lastB hne2 (by simpa using hmod)
      (by simpa using hf) (by simpa using hl) hta
    simpa [retargetExpected] using hr.2

/-- Witness for claim C6's amended theorem at the concrete 50-block chain:
the 51st append changes the target to the computed clamp value. -/
theorem c6_amended_witness :
    bc51.blocks = bc50.blocks ++ [b51] ∧
    bc51.target = retargetExpected bc50 (blk6 0) (blk6 49) ∧
    bc50.blocks.length % DIFFICULTY_UPDATE_INTERVAL = 0 := by
  have h := c6_amended_retarget_rule M1 bc50 b51 bc51 (by decide)
  exact ⟨h.1, h.2.2 (blk6 0) (blk6 49) (by decide) (by decide) (by decide) (by decide),
    by decide⟩

/-! ### Merkle layer lemmas for claim C4 -/

theorem merkleStep_some_length (hp : Nat → Nat → Nat) :
    ∀ l l2, merkleStep hp l = some l2 → l.length = 2 * l2.length
  | [], l2, h => by
    simp only [merkleStep, Option.some.injEq] at h
    simp [← h]
  | [a], l2, h => by
    simp [merkleStep] at h
  | a :: b :: rest, l2, h => by
    simp only [merkleStep, Option.map_eq_some'] at h
    obtain ⟨l3, h3, rfl⟩ := h
    have hr := merkleStep_some_length hp rest l3 h3
    simp only [List.length_cons, hr]
    omega

theorem merkleStep_even (hp : Nat → Nat → Nat) :
    ∀ l : List Nat, l.length % 2 = 0 → ∃ l2, merkleStep hp l = some l2
  | [], _ => ⟨[], rfl⟩
  | [a], h => by simp at h
  | a :: b :: rest, h => by
    have h2 : rest.length % 2 = 0 := by
      simp only [List.length_cons] at h
      omega
    obtain ⟨l2, hl2⟩ := merkleStep_even hp rest h2
    exact ⟨hp a b :: l2, by simp [merkleStep, hl2]⟩

theorem merkleStep_eq_spec (hp : Nat → Nat → Nat) :
    ∀ l l2, merkleStep hp l = some l2 → specPairStep hp l = l2
  | [], l2, h => by
    simp only [merkleStep, Option.some.injEq] at h
    simp [specPairStep, h]
  | [a], l2, h => by simp [merkleStep] at h
  | a :: b :: rest, l2, h => by
    simp only [merkleStep, Option.map_eq_some'] at h
    obtain ⟨l3, h3, rfl⟩ := h
    simp [specPairStep, merkleStep_eq_spec hp rest l3 h3]

theorem one_eq_two_pow : ∃ k, (1 : Nat) = 2 ^ k :=
  ⟨0, rfl⟩

theorem not_pow2_of_odd (n : Nat) (h2 : 2 ≤ n) (hodd : n % 2 = 1) :
    ¬ ∃ k, n = 2 ^ k := by
  rintro ⟨k, rfl⟩
  cases k with
  | zero => omega
  | succ k2 =>
    have : 2 ^ (k2 + 1) % 2 = 0 := by
      simp [Nat.pow_succ, Nat.mul_mod]
    omega

theorem pow2_double_iff (m : Nat) (hm : 1 ≤ m) :
    (∃ k, 2 * m = 2 ^ k) ↔ ∃ k, m = 2 ^ k := by
  constructor
  · rintro ⟨k, hk⟩
    cases k with
    | zero => omega
    | succ k2 =>
      refine ⟨k2, ?_⟩
      rw [Nat.pow_succ, Nat.mul_comm (2 ^ k2) 2] at hk
      omega
  · rintro ⟨k, rfl⟩
    exact ⟨k + 1, by rw [Nat.pow_succ, Nat.mul_comm]⟩

theorem merkleLoop_char (hp : Nat → Nat → Nat) :
    ∀ n, ∀ l : List Nat, l.length = n → l ≠ [] → ∀ fuel, n ≤ fuel →
      ((merkleLoopFuel hp fuel l = none ↔ ¬ ∃ k, n = 2 ^ k) ∧
       ((∃ k, n = 2 ^ k) → merkleLoopFuel hp fuel l = specMerkleLoopFuel hp fuel l)) := by
  intro n
  induction n using Nat.strong_induction_on with
  | _ n ih =>
    intro l hl hne fuel hfuel
    match l, fuel with
    | [], _ => exact absurd rfl hne
    | [x], 0 =>
      simp only [List.length_singleton] at hl
      omega
    | [x], f + 1 =>
      subst hl
      constructor
      · simp only [merkleLoopFuel]
        simp [one_eq_two_pow]
      · intro _
        rfl
    | a :: b :: rest, 0 =>
      subst hl
      simp at hfuel
    | a :: b :: rest, f + 1 =>
      subst hl
      rcases Nat.even_or_odd (a :: b :: rest).length with heven | hodd
      · have heven2 : (a :: b :: rest).length % 2 = 0 := Nat.even_iff.mp heven
        obtain ⟨l2, hl2⟩ := merkleStep_even hp (a :: b :: rest) heven2
        have hlen := merkleStep_some_length hp (a :: b :: rest) l2 hl2
        have hlt : l2.length < (a :: b :: rest).length := by
          simp only [List.length_cons] at hlen ⊢
          omega
        have hne2 : l2 ≠ [] := by
          intro hnil
          rw [hnil] at hlen
          simp at hlen
        have hf2 : l2.length ≤ f := by
          simp only [List.length_cons] at hlen hfuel ⊢
          omega
        have hih := ih l2.length hlt l2 rfl hne2 f hf2
        have hiff : (∃ k, (a :: b :: rest).length = 2 ^ k) ↔ ∃ k, l2.length = 2 ^ k := by
          rw [hlen]
          exact pow2_double_iff l2.length (by omega)
        have hstep : merkleLoopFuel hp (f + 1) (a :: b :: rest) = merkleLoopFuel hp f l2 := by
          simp [merkleLoopFuel, hl2]
        have hspecstep : specMerkleLoopFuel hp (f + 1) (a :: b :: rest) =
            specMerkleLoopFuel hp f l2 := by
          have := merkleStep_eq_spec hp (a :: b :: rest) l2 hl2
          simp [specMerkleLoopFuel, this]
        constructor
        · rw [hstep, hih.1]
          exact not_congr hiff.symm
        · intro hk
          rw [hstep, hspecstep]
          exact hih.2 (hiff.mp hk)
      · have hodd2 : (a :: b :: rest).length % 2 = 1 := Nat.odd_iff.mp hodd
        have hstep : merkleStep hp (a :: b :: rest) = none := by
          rcases hs : merkleStep hp (a :: b :: rest) with _ | l2
          · rfl
          · have := merkleStep_some_length hp (a :: b :: rest) l2 hs
            omega
        have hnone : merkleLoopFuel hp (f + 1) (a :: b :: rest) = none := by
          simp [merkleLoopFuel, hstep]
        have hnp : ¬ ∃ k, (a :: b :: rest).length = 2 ^ k :=
          not_pow2_of_odd _ (by simp only [List.length_cons]; omega) hodd2
        constructor
        · exact iff_of_true hnone hnp
        · intro hk
          exact absurd hk hnp

/-! ### Claim C4, amended theorem -/

/-- Claim C4 amended.  `MerkleRoot::calculate` returns `none` exactly when
the number of transactions is not a power of two (in particular when the
list is empty), because every folding pass halves an even layer and fails
on an odd one; when the length is `2^k` it returns the perfect pairwise
fold, which coincides with the claim's duplicate-last algorithm (no layer
is ever odd, so nothing is ever duplicated). -/
theorem c4_amended_power_of_two (M : HashModel) (txs : List Transaction) :
    (merkleCalculate M txs = none ↔ ¬ ∃ k, txs.length = 2 ^ k) ∧
    ((∃ k, txs.length = 2 ^ k) → merkleCalculate M txs = specMerkleCalculate M txs) := by
  by_cases he : txs.isEmpty
  · have hnil : txs = [] := List.isEmpty_iff.mp he
    subst hnil
    constructor
    · simp only [merkleCalculate]
      constructor
      · rintro - ⟨k, hk⟩
        exact absurd hk.symm (Nat.pos_iff_ne_zero.mp (Nat.pos_pow_of_pos k (by omega)))
      · intro _
        rfl
    · rintro ⟨k, hk⟩
      exact absurd hk.symm (Nat.pos_iff_ne_zero.mp (Nat.pos_pow_of_pos k (by omega)))
  · have hne : txs ≠ [] := by
      intro hnil
      rw [hnil] at he
      exact he rfl
    have hmapne : txs.map M.txHash ≠ [] := by
      simpa using hne
    have hmaplen : (txs.map M.txHash).length = txs.length := List.length_map txs M.txHash
    have hchar := merkleLoop_char M.pairHash txs.length (txs.map M.txHash) hmaplen hmapne
      txs.length (Nat.le_refl txs.length)
    constructor
    · rw [merkleCalculate, if_neg he]
      exact hchar.1
    · intro hk
      rw [merkleCalculate, if_neg he, specMerkleCalculate, if_neg he]
      exact hchar.2 hk

/-- Witness for claim C4's amended theorem: a two-transaction list (length
`2^1`) computes the same root under the source fold and the duplicate-last
fold. -/
theorem c4_amended_witness :
    merkleCalculate M1 [T0, T1] = specMerkleCalculate M1 [T0, T1] ∧
    merkleCalculate M1 [T0, T1] = some 300 :=
  ⟨(c4_amended_power_of_two M1 [T0, T1]).2 ⟨1, rfl⟩, by decide⟩

/-! ### Eviction-loop lemmas -/

theorem evictStep_noop (M : HashModel) (bc : Blockchain) (i : TransactionInput)
    (h : (mapLookup bc.utxos i.prev_transaction_output_hash).all (fun bv => ! bv.1) = true) :
    evictStep M bc i = bc := by
  unfold evictStep
  rcases hl : mapLookup bc.utxos i.prev_transaction_output_hash with _ | ⟨flag, out⟩
  · rfl
  · rw [hl] at h
    cases flag
    · rfl
    · simp [Option.all] at h

theorem evictAll_noop (M : HashModel) (bc : Blockchain) (tx : Transaction)
    (h : noReservedInput bc tx) : evictAll M bc tx = bc := by
  unfold evictAll
  have hgen : ∀ l : List TransactionInput,
      (∀ i ∈ l, (mapLookup bc.utxos i.prev_transaction_output_hash).all
        (fun bv => ! bv.1) = true) →
      l.foldl (evictStep M) bc = bc := by
    intro l
    induction l with
    | nil => intro _; rfl
    | cons x xs ihl =>
      intro hall
      simp only [List.foldl_cons]
      rw [evictStep_noop M bc x (hall x (List.mem_cons_self x xs))]
      exact ihl (fun i hi => hall i (List.mem_cons_of_mem x hi))
  exact hgen tx.inputs h

theorem evictStep_fields (M : HashModel) (bc : Blockchain) (i : TransactionInput) :
    (evictStep M bc i).blocks = bc.blocks ∧ (evictStep M bc i).target = bc.target := by
  constructor
  · unfold evictStep
    split
    · split
      · split
        · rfl
        · rfl
      · rfl
    · rfl
  · unfold evictStep
    split
    · split
      · split
        · rfl
        · rfl
      · rfl
    · rfl

theorem evictAll_fields (M : HashModel) (bc : Blockchain) (tx : Transaction) :
    (evictAll M bc tx).blocks = bc.blocks ∧ (evictAll M bc tx).target = bc.target := by
  unfold evictAll
  have hgen : ∀ (l : List TransactionInput) (st : Blockchain),
      (l.foldl (evictStep M) st).blocks = st.blocks ∧
      (l.foldl (evictStep M) st).target = st.target := by
    intro l
    induction l with
    | nil => intro st; exact ⟨rfl, rfl⟩
    | cons x xs ihl =>
      intro st
      simp only [List.foldl_cons]
      obtain ⟨hb, ht⟩ := ihl (evictStep M st x)
      obtain ⟨hb2, ht2⟩ := evictStep_fields M st x
      exact ⟨hb.trans hb2, ht.trans ht2⟩
  exact hgen tx.inputs bc

theorem addToMempool_ok_fields (M : HashModel) (bc : Blockchain) (now : Int)
    (tx : Transaction) (bc2 : Blockchain) (hok : addToMempool M bc now tx = .ok bc2) :
    bc2.blocks = bc.blocks ∧ bc2.target = bc.target := by
  rcases hv : validateInputs bc.utxos tx.inputs [] with _ | e2 | u
  · simp only [addToMempool, hv] at hok
    cases hok
  · simp only [addToMempool, hv] at hok
    cases hok
  · cases u
    simp only [addToMempool, hv] at hok
    rcases hit : inputsTotal (evictAll M bc tx).utxos tx.inputs with _ | iv
    · simp only [hit] at hok
      cases hok
    · rcases hot : outputsTotal tx.outputs with _ | ov
      · simp only [hit, hot] at hok
        cases hok
      · simp only [hit, hot] at hok
        by_cases hlt : iv < ov
        · rw [if_pos hlt] at hok
          cases hok
        · rw [if_neg hlt] at hok
          rcases hs : sortMempool (reservedState M bc tx).utxos
              ((reservedState M bc tx).mempool ++ [(now, tx)]) with _ | sorted
          · simp only [hs] at hok
            cases hok
          · simp only [hs] at hok
            cases hok
            exact ⟨(evictAll_fields M bc tx).1, (evictAll_fields M bc tx).2⟩

theorem addToMempool_err_state (M : HashModel) (bc : Blockchain) (now : Int)
    (tx : Transaction) (e : BtcError) (bc2 : Blockchain)
    (herr : addToMempool M bc now tx = .err e bc2) :
    bc2 = bc ∨ bc2 = evictAll M bc tx := by
  rcases hv : validateInputs bc.utxos tx.inputs [] with _ | e2 | u
  · simp only [addToMempool, hv] at herr
    cases herr
  · simp only [addToMempool, hv, ChainResult.err.injEq] at herr
    exact Or.inl herr.2.symm
  · cases u
    simp only [addToMempool, hv] at herr
    rcases hit : inputsTotal (evictAll M bc tx).utxos tx.inputs with _ | iv
    · simp only [hit] at herr
      cases herr
    · rcases hot : outputsTotal tx.outputs with _ | ov
      · simp only [hit, hot] at herr
        cases herr
      · simp only [hit, hot] at herr
        by_cases hlt : iv < ov
        · rw [if_pos hlt] at herr
          rw [ChainResult.err.injEq] at herr
          exact Or.inr herr.2.symm
        · rw [if_neg hlt] at herr
          rcases hs : sortMempool (reservedState M bc tx).utxos
              ((reservedState M bc tx).mempool ++ [(now, tx)]) with _ | sorted
          · simp only [hs] at herr
            cases herr
          · simp only [hs] at herr
            cases herr

/-! ### Claim C3, amended theorem -/

/-- Claim C3 amended.  When none of the transaction's referenced UTXOs is
reserved at the start of the call, an erroring `add_to_mempool` leaves the
chain state exactly as it was: the input-validation errors return before any
mutation, and the conflict-eviction loop — the only mutation preceding the
fee check — does nothing when no referenced UTXO is reserved.  (The
counterexample shows the proviso is necessary: with a reserved input, the
fee-check error keeps the eviction loop's mutations.) -/
theorem c3_amended_unreserved_error_atomic (M : HashModel) (bc : Blockchain)
    (now : Int) (tx : Transaction) (e : BtcError) (bc2 : Blockchain)
    (hres : noReservedInput bc tx)
    (herr : addToMempool M bc now tx = .err e bc2) : bc2 = bc := by
  rcases addToMempool_err_state M bc now tx e bc2 herr with h | h
  · exact h
  · rw [h]
    exact evictAll_noop M bc tx hres

/-- Witness for claim C3's amended theorem: a fee-check failure on a state
with no reserved UTXO returns with the state unchanged. -/
theorem c3_amended_witness :
    noReservedInput bcC1 T3 ∧
    addToMempool M1 bcC1 7 T3 = .err .InvalidTransaction bcC1 ∧
    bcC1 = bcC1 :=
  ⟨by decide, by decide,
    c3_amended_unreserved_error_atomic M1 bcC1 7 T3 .InvalidTransaction bcC1
      (by decide) (by decide)⟩

/-! ### Claim C8, amended theorem -/

theorem validateBlock_ok_matches (M : HashModel) (bc : Blockchain) (b : Block)
    (hne : bc.blocks ≠ []) (hv : validateBlock M bc b = .ok ()) :
    matchesTarget (M.headerHash b.header) b.header.target = true := by
  unfold validateBlock at hv
  rw [if_neg (by simpa [List.isEmpty_iff] using hne)] at hv
  rcases hlast : bc.blocks.getLast? with _ | prev
  · rw [hlast] at hv
    cases hv
  · simp only [hlast] at hv
    by_cases hp : b.header.prev_block_hash ≠ M.blockHash prev
    · rw [if_pos hp] at hv
      cases hv
    · rw [if_neg hp] at hv
      by_cases hm : (! matchesTarget (M.headerHash b.header) b.header.target) = true
      · rw [if_pos hm] at hv
        cases hv
      · simpa using hm

/-- Claim C8 amended.  In every reachable chain state every block *except
the first* satisfies `header.hash().matches_target(header.target)`: the
non-empty-chain branch of `add_block` checks it for every appended block,
while the genesis branch does not (the counterexample shows a reachable
chain whose first block misses its target). -/
theorem c8_amended_non_genesis_pow (M : HashModel) (bc : Blockchain)
    (h : Reachable M bc) :
    bc.blocks.tail.all
      (fun b => matchesTarget (M.headerHash b.header) b.header.target) = true := by
  induction h with
  | init => rfl
  | addBlockOk hr hok ih =>
    next bc0 b bc2 =>
    obtain ⟨hv, bc3, hta, hbc2⟩ := addBlock_ok_elim _ _ _ _ hok
    obtain ⟨hblocks, -, -⟩ := tryAdjust_fields _ _ hta
    rcases hbb : bc0.blocks with _ | ⟨x, xs⟩
    · rw [hbc2]
      simp only [hblocks]
      simp [hbb]
    · have hmt := validateBlock_ok_matches M bc0 b (by rw [hbb]; simp) hv
      rw [hbc2]
      simp only [hblocks]
      rw [hbb] at ih ⊢
      simp only [List.cons_append, List.tail_cons] at ih ⊢
      simp [List.all_append, ih, hmt]
  | addBlockErr hr herr ih =>
    rw [addBlock_err_elim _ _ _ _ _ herr]
    exact ih
  | addToMempoolOk hr hok ih =>
    rw [(addToMempool_ok_fields _ _ _ _ _ hok).1]
    exact ih
  | addToMempoolErr hr herr ih =>
    rcases addToMempool_err_state _ _ _ _ _ _ herr with h2 | h2
    · rw [h2]
      exact ih
    · rw [h2, (evictAll_fields _ _ _).1]
      exact ih
  | cleanup now hr ih =>
    exact ih
  | rebuild hr ih =>
    exact ih

/-- Witness for claim C8's amended theorem at the reachable two-block chain
`s4C2`. -/
theorem c8_amended_witness :
    s4C2.blocks.tail.all
      (fun b => matchesTarget (M1.headerHash b.header) b.header.target) = true := by
  have h1 : Reachable M1 s1 :=
    @Reachable.addBlockOk M1 Blockchain.new B0 s1 Reachable.init (by decide)
  have e2 : rebuildUtxos M1 s1 = s2 := by decide
  have h2 : Reachable M1 s2 := e2 ▸ Reachable.rebuild h1
  have h3 : Reachable M1 s3 :=
    @Reachable.addToMempoolOk M1 s2 10 T1 s3 h2 (by decide)
  have h4 : Reachable M1 s4C2 :=
    @Reachable.addBlockOk M1 s3 B1 s4C2 h3 (by decide)
  exact c8_amended_non_genesis_pow M1 s4C2 h4

/-! ### Association-map lemmas -/

theorem mapLookup_mem (m : UtxoMap) (k : Nat) (bv : Bool × TransactionOutput)
    (h : mapLookup m k = some bv) : (k, bv) ∈ m := by
  unfold mapLookup at h
  rcases hf : m.find? (fun e => e.1 == k) with _ | e
  · rw [hf] at h
    cases h
  · rw [hf] at h
    have hm := List.mem_of_find?_eq_some hf
    have hp := List.find?_some hf
    rcases e with ⟨k2, bv2⟩
    simp only [Option.map_some', Option.some.injEq] at h
    have hk : k2 = k := by simpa using hp
    rw [← h, ← hk]
    exact hm

theorem findIdx?_none_of_all {α : Type} (p : α → Bool) :
    ∀ (l : List α) (i : Nat), (∀ e ∈ l, p e = false) → List.findIdx? p l i = none := by
  intro l
  induction l with
  | nil => intro i _; rfl
  | cons x xs ih =>
    intro i hall
    have hx : p x = false := hall x (List.mem_cons_self x xs)
    simp only [List.findIdx?, hx]
    exact ih (i + 1) (fun e he => hall e (List.mem_cons_of_mem x he))

theorem find?_map_keypres (f : Nat × (Bool × TransactionOutput) → Nat × (Bool × TransactionOutput))
    (hf : ∀ e, (f e).1 = e.1) (m : UtxoMap) (k : Nat) :
    (m.map f).find? (fun e => e.1 == k) = (m.find? (fun e => e.1 == k)).map f := by
  induction m with
  | nil => rfl
  | cons e rest ih =>
    simp only [List.map_cons, List.find?_cons, hf e]
    cases hk : (e.1 == k)
    · simp [ih]
    · simp

theorem mapLookup_map_cond (C : Nat → Prop) [DecidablePred C] (b : Bool)
    (m : UtxoMap) (k : Nat) :
    mapLookup (m.map (fun e => if C e.1 then (e.1, (b, e.2.2)) else e)) k =
      if C k then (mapLookup m k).map (fun bv => (b, bv.2)) else mapLookup m k := by
  have hf : ∀ e : Nat × (Bool × TransactionOutput),
      ((fun e => if C e.1 then (e.1, (b, e.2.2)) else e) e).1 = e.1 := by
    intro e
    by_cases hc : C e.1
    · simp [hc]
    · simp [hc]
  unfold mapLookup
  rw [find?_map_keypres _ hf]
  rcases hfind : m.find? (fun e => e.1 == k) with _ | e
  · rw [hfind]
    by_cases hc : C k
    · simp [hc]
    · simp [hc]
  · rw [hfind]
    have hk : e.1 = k := by simpa using List.find?_some hfind
    by_cases hc : C k
    · have hce : C e.1 := by rw [hk]; exact hc
      simp [hc, hce]
    · have hce : ¬ C e.1 := by rw [hk]; exact hc
      simp [hc, hce]

theorem adjust_fold_eq_map (b : Bool) :
    ∀ (ks : List Nat) (m : UtxoMap),
      ks.foldl (fun m2 k => mapAdjust m2 k (fun bv => (b, bv.2))) m =
        m.map (fun e => if e.1 ∈ ks then (e.1, (b, e.2.2)) else e) := by
  intro ks
  induction ks with
  | nil =>
    intro m
    rw [List.foldl_nil]
    have hid : ∀ e ∈ m, (if (e.1 ∈ ([] : List Nat)) then (e.1, (b, e.2.2)) else e) = e := by
      intro e _
      simp
    rw [List.map_congr_left hid]
    simp
  | cons k ks ih =>
    intro m
    rw [List.foldl_cons, ih (mapAdjust m k (fun bv => (b, bv.2))), mapAdjust, List.map_map]
    congr 1
    funext e
    by_cases hek : e.1 = k
    · simp only [Function.comp_apply, if_pos hek]
      by_cases hks : k ∈ ks
      · simp [hek, hks]
      · simp [hek, hks]
    · simp only [Function.comp_apply, if_neg hek]
      by_cases hks : e.1 ∈ ks
      · simp [hek, hks]
      · simp [hek, hks]

theorem reserveAll_eq_map (m : UtxoMap) (inputs : List TransactionInput) :
    reserveAll m inputs = m.map (fun e =>
      if (∃ i ∈ inputs, i.prev_transaction_output_hash = e.1)
      then (e.1, (true, e.2.2)) else e) := by
  have h1 : reserveAll m inputs =
      (inputs.map (fun i => i.prev_transaction_output_hash)).foldl
        (fun m2 k => mapAdjust m2 k (fun bv => (true, bv.2))) m := by
    rw [reserveAll, List.foldl_map]
  rw [h1, adjust_fold_eq_map]
  congr 1
  funext e
  have : (e.1 ∈ inputs.map (fun i => i.prev_transaction_output_hash)) ↔
      ∃ i ∈ inputs, i.prev_transaction_output_hash = e.1 := List.mem_map
  by_cases hc : ∃ i ∈ inputs, i.prev_transaction_output_hash = e.1
  · rw [if_pos (this.mpr hc), if_pos hc]
  · rw [if_neg (fun hmem => hc (this.mp hmem)), if_neg hc]

/-! ### Eviction under no producer match -/

theorem evictStep_no_producer (M : HashModel) (S : Blockchain) (i : TransactionInput)
    (hnone : S.mempool.findIdx? (producesOutput M i.prev_transaction_output_hash) = none) :
    evictStep M S i = S ∨ evictStep M S i =
      { S with utxos := mapAdjust S.utxos i.prev_transaction_output_hash (fun bv => (false, bv.2)) } := by
  unfold evictStep
  rcases hl : mapLookup S.utxos i.prev_transaction_output_hash with _ | ⟨flag, out⟩
  · simp [hl]
  · cases flag
    · simp [hl]
    · simp [hl, hnone]

theorem evictAll_no_producer (M : HashModel) (bc : Blockchain) (tx : Transaction)
    (hnp : noMempoolProducer M bc tx) :
    ∃ ks : List Nat, (∀ k ∈ ks, spendsHash tx k) ∧
      evictAll M bc tx =
        { bc with utxos := ks.foldl (fun m2 k => mapAdjust m2 k (fun bv => (false, bv.2))) bc.utxos } := by
  have hgen : ∀ (l : List TransactionInput), (∀ i ∈ l, i ∈ tx.inputs) →
      ∀ ks0 : List Nat, (∀ k ∈ ks0, spendsHash tx k) →
      ∃ ks : List Nat, (∀ k ∈ ks, spendsHash tx k) ∧
        l.foldl (evictStep M)
            { bc with utxos := ks0.foldl (fun m2 k => mapAdjust m2 k (fun bv => (false, bv.2))) bc.utxos } =
          { bc with utxos := ks.foldl (fun m2 k => mapAdjust m2 k (fun bv => (false, bv.2))) bc.utxos } := by
    intro l
    induction l with
    | nil =>
      intro _ ks0 hks0
      exact ⟨ks0, hks0, rfl⟩
    | cons x xs ih =>
      intro hsub ks0 hks0
      have hx : x ∈ tx.inputs := hsub x (List.mem_cons_self x xs)
      have hxs : ∀ i ∈ xs, i ∈ tx.inputs := fun i hi => hsub i (List.mem_cons_of_mem x hi)
      have hnone : ({ bc with utxos := ks0.foldl (fun m2 k => mapAdjust m2 k (fun bv => (false, bv.2))) bc.utxos } : Blockchain).mempool.findIdx?
          (producesOutput M x.prev_transaction_output_hash) = none := by
        apply findIdx?_none_of_all
        intro e he
        have hall := hnp x hx
        rw [List.all_eq_true] at hall
        have hthis := hall e he
        simpa using hthis
      rcases evictStep_no_producer M _ x hnone with hcase | hcase
      · rw [List.foldl_cons, hcase]
        exact ih hxs ks0 hks0
      · rw [List.foldl_cons, hcase]
        have hfold : mapAdjust (ks0.foldl (fun m2 k => mapAdjust m2 k (fun bv => (false, bv.2))) bc.utxos) x.prev_transaction_output_hash (fun bv => (false, bv.2)) =
            (ks0 ++ [x.prev_transaction_output_hash]).foldl (fun m2 k => mapAdjust m2 k (fun bv => (false, bv.2))) bc.utxos := by
          rw [List.foldl_append]
          rfl
        have hks0x : ∀ k ∈ ks0 ++ [x.prev_transaction_output_hash], spendsHash tx k := by
          intro k hk
          rcases List.mem_append.mp hk with hk | hk
          · exact hks0 k hk
          · rw [List.mem_singleton] at hk
            exact ⟨x, hx, hk.symm⟩
        obtain ⟨ks, hks, heq⟩ := ih hxs (ks0 ++ [x.prev_transaction_output_hash]) hks0x
        refine ⟨ks, hks, ?_⟩
        have heq2 := heq
        rw [← hfold] at heq2
        exact heq2
  have h0 : ({ bc with utxos := ([] : List Nat).foldl (fun m2 k => mapAdjust m2 k (fun bv => (false, bv.2))) bc.utxos } : Blockchain) = bc := rfl
  obtain ⟨ks, hks, heq⟩ := hgen tx.inputs (fun i hi => hi) [] (by intro k hk; cases hk)
  rw [h0] at heq
  exact ⟨ks, hks, heq⟩

/-! ### Sort and success-path lemmas for add_to_mempool -/

theorem addToMempool_ok_elim (M : HashModel) (bc : Blockchain) (now : Int)
    (tx : Transaction) (bc2 : Blockchain) (hok : addToMempool M bc now tx = .ok bc2) :
    validateInputs bc.utxos tx.inputs [] = .ok () ∧
    ∃ sorted, sortMempool (reservedState M bc tx).utxos
        ((reservedState M bc tx).mempool ++ [(now, tx)]) = some sorted ∧
      bc2 = { reservedState M bc tx with mempool := sorted } := by
  rcases hv : validateInputs bc.utxos tx.inputs [] with _ | e2 | u
  · simp only [addToMempool, hv] at hok
    cases hok
  · simp only [addToMempool, hv] at hok
    cases hok
  · cases u
    simp only [addToMempool, hv] at hok
    rcases hit : inputsTotal (evictAll M bc tx).utxos tx.inputs with _ | iv
    · simp only [hit] at hok
      cases hok
    · rcases hot : outputsTotal tx.outputs with _ | ov
      · simp only [hit, hot] at hok
        cases hok
      · simp only [hit, hot] at hok
        by_cases hlt : iv < ov
        · rw [if_pos hlt] at hok
          cases hok
        · rw [if_neg hlt] at hok
          rcases hs : sortMempool (reservedState M bc tx).utxos
              ((reservedState M bc tx).mempool ++ [(now, tx)]) with _ | sorted
          · simp only [hs] at hok
            cases hok
          · simp only [hs, ChainResult.ok.injEq] at hok
            exact ⟨rfl, sorted, rfl, hok.symm⟩

theorem attachFees_map_fst (u : UtxoMap) :
    ∀ (mp : List (Int × Transaction)) (ks : List ((Int × Transaction) × Nat)),
      attachFees u mp = some ks → ks.map (fun p => p.1) = mp
  | [], ks, h => by
    simp only [attachFees, Option.some.injEq] at h
    rw [← h]
    rfl
  | e :: rest, ks, h => by
    simp only [attachFees] at h
    rcases hf : minerFee u e.2 with _ | f
    · simp only [hf] at h
      cases h
    · simp only [hf] at h
      rcases ha : attachFees u rest with _ | ks2
      · simp only [ha] at h
        cases h
      · simp only [ha, Option.some.injEq] at h
        rw [← h]
        simp only [List.map_cons]
        rw [attachFees_map_fst u rest ks2 ha]

theorem attachFees_mem_fee (u : UtxoMap) :
    ∀ (mp : List (Int × Transaction)) (ks : List ((Int × Transaction) × Nat)),
      attachFees u mp = some ks → ∀ p ∈ ks, minerFee u p.1.2 = some p.2
  | [], ks, h => by
    simp only [attachFees, Option.some.injEq] at h
    rw [← h]
    intro p hp
    cases hp
  | e :: rest, ks, h => by
    simp only [attachFees] at h
    rcases hf : minerFee u e.2 with _ | f
    · simp only [hf] at h
      cases h
    · simp only [hf] at h
      rcases ha : attachFees u rest with _ | ks2
      · simp only [ha] at h
        cases h
      · simp only [ha, Option.some.injEq] at h
        rw [← h]
        intro p hp
        rcases List.mem_cons.mp hp with hp | hp
        · rw [hp]
          exact hf
        · exact attachFees_mem_fee u rest ks2 ha p hp

theorem sortMempool_perm (u : UtxoMap) (mp sorted : List (Int × Transaction))
    (h : sortMempool u mp = some sorted) : List.Perm sorted mp := by
  unfold sortMempool at h
  rw [Option.map_eq_some'] at h
  obtain ⟨ks, hks, hsorted⟩ := h
  subst hsorted
  have hperm := (List.perm_insertionSort feeRel ks).map (fun p => p.1)
  rw [attachFees_map_fst u mp ks hks] at hperm
  exact hperm

/-! ### The success path of add_to_mempool under no producer match -/

theorem reservedState_no_producer (M : HashModel) (bc : Blockchain) (tx : Transaction)
    (hnp : noMempoolProducer M bc tx) :
    (reservedState M bc tx).mempool = bc.mempool ∧
    (reservedState M bc tx).utxos =
      bc.utxos.map (fun e => if spendsHash tx e.1 then (e.1, (true, e.2.2)) else e) := by
  obtain ⟨ks, hks, hev⟩ := evictAll_no_producer M bc tx hnp
  constructor
  · show (evictAll M bc tx).mempool = bc.mempool
    rw [hev]
  · show reserveAll (evictAll M bc tx).utxos tx.inputs = _
    rw [hev]
    show reserveAll (ks.foldl (fun m2 k => mapAdjust m2 k (fun bv => (false, bv.2))) bc.utxos) tx.inputs = _
    rw [adjust_fold_eq_map, reserveAll_eq_map, List.map_map]
    apply List.map_congr_left
    intro e _
    simp only [Function.comp_apply]
    by_cases hsp : spendsHash tx e.1
    · rw [if_pos hsp]
      by_cases hkse : e.1 ∈ ks
      · rw [if_pos hkse]
        have : (∃ i ∈ tx.inputs, i.prev_transaction_output_hash = (e.1, (false, e.2.2)).1) :=
          hsp
        rw [if_pos this]
      · rw [if_neg hkse]
        have : (∃ i ∈ tx.inputs, i.prev_transaction_output_hash = e.1) := hsp
        rw [if_pos this]
    · rw [if_neg hsp]
      have hkse : e.1 ∉ ks := fun hmem => hsp (hks e.1 hmem)
      rw [if_neg hkse]
      have : ¬ (∃ i ∈ tx.inputs, i.prev_transaction_output_hash = e.1) := hsp
      rw [if_neg this]

/-! ### Claim C2, amended theorem -/

/-- Claim C2 amended.  A successful `add_to_mempool` preserves the
reservation invariant provided no mempool transaction *produces* an output
whose hash equals one of the new transaction's input references (so the
conflict-eviction branch finds nothing to evict): every input of the new
transaction ends reserved with the new transaction as its mempool spender,
and every other entry keeps its flag and its spenders.  The invariant does
not hold in all reachable states — the counterexample shows `add_block`
breaking it, because it removes mempool transactions without touching
`utxos`. -/
theorem c2_amended_add_to_mempool_preserves_inv (M : HashModel) (bc : Blockchain)
    (now : Int) (tx : Transaction) (bc2 : Blockchain)
    (hinv : reservationInv bc) (hnp : noMempoolProducer M bc tx)
    (hok : addToMempool M bc now tx = .ok bc2) : reservationInv bc2 := by
  obtain ⟨-, sorted, hs, hbc2⟩ := addToMempool_ok_elim M bc now tx bc2 hok
  obtain ⟨hmem, hutx⟩ := reservedState_no_producer M bc tx hnp
  have hperm : List.Perm sorted ((reservedState M bc tx).mempool ++ [(now, tx)]) :=
    sortMempool_perm _ _ _ hs
  rw [hmem] at hperm
  intro e2 he2
  have hu2 : bc2.utxos = bc.utxos.map
      (fun e => if spendsHash tx e.1 then (e.1, (true, e.2.2)) else e) := by
    rw [hbc2]
    exact hutx
  have hmp2 : bc2.mempool = sorted := by
    rw [hbc2]
  rw [hu2] at he2
  obtain ⟨e1, he1, hfe⟩ := List.mem_map.mp he2
  have hmemiff : ∀ m : Int × Transaction, m ∈ bc2.mempool ↔ m ∈ bc.mempool ∨ m = (now, tx) := by
    intro m
    rw [hmp2, hperm.mem_iff, List.mem_append, List.mem_singleton]
  by_cases hsp : spendsHash tx e1.1
  · rw [if_pos hsp] at hfe
    rw [← hfe]
    constructor
    · intro _
      exact ⟨(now, tx), (hmemiff (now, tx)).mpr (Or.inr rfl), hsp⟩
    · intro _
      rfl
  · rw [if_neg hsp] at hfe
    rw [← hfe]
    have hiv := hinv e1 he1
    constructor
    · intro hflag
      obtain ⟨m, hm, hmsp⟩ := hiv.mp hflag
      exact ⟨m, (hmemiff m).mpr (Or.inl hm), hmsp⟩
    · intro hex
      obtain ⟨m, hm, hmsp⟩ := hex
      rcases (hmemiff m).mp hm with hm2 | hm2
      · exact hiv.mpr ⟨m, hm2, hmsp⟩
      · rw [hm2] at hmsp
        exact absurd hmsp hsp

/-- Witness for claim C2's amended theorem: adding `T1` to `bcC1` (invariant
holds, no producer match) preserves the invariant. -/
theorem c2_amended_witness :
    reservationInv bcC1 ∧ noMempoolProducer M1 bcC1 T1 ∧ reservationInv bcC1a :=
  ⟨by decide, by decide,
    c2_amended_add_to_mempool_preserves_inv M1 bcC1 5 T1 bcC1a (by decide) (by decide)
      (by decide)⟩

/-! ### Pinned-value lemmas: every stored output is determined by its key -/

theorem pinned_of_corr (M : HashModel) (m1 m2 : UtxoMap)
    (hc : ∀ e2 ∈ m2, ∃ e1 ∈ m1, e2.1 = e1.1 ∧ e2.2.2 = e1.2.2)
    (h1 : pinned M m1) : pinned M m2 := by
  intro e2 he2
  obtain ⟨e1, he1, hk, hv⟩ := hc e2 he2
  obtain ⟨t, ht, o, ho, hval⟩ := h1 e1 he1
  exact ⟨t, by rw [hk]; exact ht, o, ho, by rw [hv]; exact hval⟩

theorem pinned_mapAdjust_flag (M : HashModel) (m : UtxoMap) (k : Nat) (b : Bool)
    (h : pinned M m) : pinned M (mapAdjust m k (fun bv => (b, bv.2))) := by
  apply pinned_of_corr M m
  · intro e2 he2
    obtain ⟨e1, he1, hfe⟩ := List.mem_map.mp he2
    refine ⟨e1, he1, ?_⟩
    by_cases hk : e1.1 = k
    · rw [← hfe, if_pos hk]
      exact ⟨hk.symm, rfl⟩
    · rw [← hfe, if_neg hk]
      exact ⟨rfl, rfl⟩
  · exact h

theorem pinned_unreserveAll (M : HashModel) (m : UtxoMap) (inputs : List TransactionInput)
    (h : pinned M m) : pinned M (unreserveAll m inputs) := by
  unfold unreserveAll
  induction inputs generalizing m with
  | nil => exact h
  | cons i rest ih =>
    rw [List.foldl_cons]
    exact ih _ (pinned_mapAdjust_flag M m _ false h)

theorem pinned_reserveAll (M : HashModel) (m : UtxoMap) (inputs : List TransactionInput)
    (h : pinned M m) : pinned M (reserveAll m inputs) := by
  unfold reserveAll
  induction inputs generalizing m with
  | nil => exact h
  | cons i rest ih =>
    rw [List.foldl_cons]
    exact ih _ (pinned_mapAdjust_flag M m _ true h)

theorem pinned_filter (M : HashModel) (m : UtxoMap) (p : Nat × (Bool × TransactionOutput) → Bool)
    (h : pinned M m) : pinned M (m.filter p) :=
  fun e2 he2 => h e2 (List.mem_of_mem_filter he2)

theorem pinned_evictStep (M : HashModel) (bc : Blockchain) (i : TransactionInput)
    (h : pinned M bc.utxos) : pinned M (evictStep M bc i).utxos := by
  unfold evictStep
  split
  · split
    · split
      · exact pinned_unreserveAll M bc.utxos _ h
      · exact h
    · exact pinned_mapAdjust_flag M bc.utxos _ false h
  · exact h

theorem pinned_evictAll (M : HashModel) (bc : Blockchain) (tx : Transaction)
    (h : pinned M bc.utxos) : pinned M (evictAll M bc tx).utxos := by
  unfold evictAll
  induction tx.inputs generalizing bc with
  | nil => exact h
  | cons i rest ih =>
    rw [List.foldl_cons]
    exact ih (evictStep M bc i) (pinned_evictStep M bc i h)

theorem mapLookup_mapInsert_self (m : UtxoMap) (k : Nat) (v : Bool × TransactionOutput) :
    mapLookup (mapInsert m k v) k = some v := by
  unfold mapInsert
  by_cases hc : mapContains m k
  · rw [if_pos hc]
    have hf : ∀ e : Nat × (Bool × TransactionOutput),
        ((fun e => if e.1 = k then (k, v) else e) e).1 = e.1 := by
      intro e
      by_cases hk : e.1 = k
      · simp [hk]
      · simp [hk]
    unfold mapLookup
    rw [find?_map_keypres _ hf]
    unfold mapContains mapLookup at hc
    rcases hfind : m.find? (fun e => e.1 == k) with _ | e
    · rw [hfind] at hc
      simp at hc
    · rw [hfind]
      have hk : e.1 = k := by simpa using List.find?_some hfind
      simp [hk]
  · rw [if_neg hc]
    unfold mapContains mapLookup at hc
    unfold mapLookup
    rcases hfind : m.find? (fun e => e.1 == k) with _ | e
    · rw [List.find?_append, hfind]
      simp
    · rw [hfind] at hc
      simp at hc

theorem not_contains_keys (m : UtxoMap) (k : Nat) (hc : ¬ mapContains m k = true) :
    ∀ e ∈ m, e.1 ≠ k := by
  unfold mapContains mapLookup at hc
  rcases hfind : m.find? (fun e => e.1 == k) with _ | e
  · intro e he hk
    rw [List.find?_eq_none] at hfind
    exact hfind e he (by simpa using hk)
  · rw [hfind] at hc
    simp at hc

theorem mapInsert_mapInsert (m : UtxoMap) (k : Nat) (v w : Bool × TransactionOutput) :
    mapInsert (mapInsert m k v) k w = mapInsert m k w := by
  have hcontains : mapContains (mapInsert m k v) k = true := by
    unfold mapContains
    rw [mapLookup_mapInsert_self]
    rfl
  by_cases hc : mapContains m k
  · rw [mapInsert, if_pos hcontains, mapInsert, if_pos hc, mapInsert, if_pos hc,
      List.map_map]
    apply List.map_congr_left
    intro e _
    simp only [Function.comp_apply]
    by_cases hk : e.1 = k
    · simp [hk]
    · simp [hk]
  · rw [mapInsert, if_pos hcontains, mapInsert, if_neg hc, mapInsert, if_neg hc,
      List.map_append]
    have hkeys := not_contains_keys m k hc
    have hmap : m.map (fun e => if e.1 = k then (k, w) else e) = m := by
      have hid : ∀ e ∈ m, (if e.1 = k then (k, w) else e) = e := by
        intro e he
        rw [if_neg (hkeys e he)]
      rw [List.map_congr_left hid]
      simp
    rw [hmap]
    simp

theorem mem_mapInsert (m : UtxoMap) (k : Nat) (v : Bool × TransactionOutput) :
    ∀ e2 ∈ mapInsert m k v, e2 = (k, v) ∨ e2 ∈ m := by
  intro e2 he2
  unfold mapInsert at he2
  by_cases hc : mapContains m k
  · rw [if_pos hc] at he2
    obtain ⟨e1, he1, hfe⟩ := List.mem_map.mp he2
    by_cases hk : e1.1 = k
    · left
      rw [← hfe, if_pos hk]
    · right
      rw [← hfe, if_neg hk]
      exact he1
  · rw [if_neg hc] at he2
    rcases List.mem_append.mp he2 with h | h
    · right
      exact h
    · left
      exact List.mem_singleton.mp h

theorem insert_fold_getLast (k : Nat) :
    ∀ (outs : List TransactionOutput) (m : UtxoMap) (o : TransactionOutput),
      outs.getLast? = some o →
      outs.foldl (fun acc o2 => mapInsert acc k (false, o2)) m = mapInsert m k (false, o)
  | [], m, o, h => by cases h
  | [x], m, o, h => by
    simp only [List.getLast?_singleton, Option.some.injEq] at h
    rw [← h]
    rfl
  | x :: y :: rest, m, o, h => by
    rw [List.getLast?_cons_cons] at h
    rw [List.foldl_cons]
    rw [insert_fold_getLast k (y :: rest) (mapInsert m k (false, x)) o h]
    exact mapInsert_mapInsert m k (false, x) (false, o)

theorem pinned_removeFold (M : HashModel) (inputs : List TransactionInput) :
    ∀ m : UtxoMap, pinned M m →
      pinned M (inputs.foldl (fun acc i => mapRemove acc i.prev_transaction_output_hash) m) := by
  induction inputs with
  | nil => intro m h; exact h
  | cons i rest ih =>
    intro m h
    rw [List.foldl_cons]
    exact ih _ (pinned_filter M m _ h)

theorem pinned_applyTx (M : HashModel) (m : UtxoMap) (t : Transaction)
    (h : pinned M m) : pinned M (applyTx M m t) := by
  unfold applyTx
  have h1 := pinned_removeFold M t.inputs m h
  rcases houts : t.outputs.getLast? with _ | o
  · have hnil : t.outputs = [] := List.getLast?_eq_none_iff.mp houts
    rw [hnil]
    exact h1
  · rw [insert_fold_getLast (M.txHash t) t.outputs _ o houts]
    intro e2 he2
    rcases mem_mapInsert _ _ _ e2 he2 with he | he
    · rw [he]
      exact ⟨t, rfl, o, houts, rfl⟩
    · exact h1 e2 he

theorem pinned_rebuildUtxos (M : HashModel) (bc : Blockchain)
    (h : pinned M bc.utxos) : pinned M (rebuildUtxos M bc).utxos := by
  unfold rebuildUtxos
  show pinned M (bc.blocks.foldl (fun m b => b.transactions.foldl (applyTx M) m) bc.utxos)
  have htx : ∀ (txs : List Transaction) (m : UtxoMap), pinned M m →
      pinned M (txs.foldl (applyTx M) m) := by
    intro txs
    induction txs with
    | nil => intro m hm; exact hm
    | cons t rest ih =>
      intro m hm
      rw [List.foldl_cons]
      exact ih _ (pinned_applyTx M m t hm)
  have hblocks : ∀ (bs : List Block) (m : UtxoMap), pinned M m →
      pinned M (bs.foldl (fun m2 b => b.transactions.foldl (applyTx M) m2) m) := by
    intro bs
    induction bs with
    | nil => intro m hm; exact hm
    | cons b rest ih =>
      intro m hm
      rw [List.foldl_cons]
      exact ih _ (htx b.transactions m hm)
  exact hblocks bc.blocks bc.utxos h

/-! ### Fee determinacy under pinned maps and an injective transaction hash -/

theorem pinned_lookup_value (M : HashModel) (hInj : Function.Injective M.txHash)
    (m1 m2 : UtxoMap) (h1 : pinned M m1) (h2 : pinned M m2) (k : Nat)
    (bv1 bv2 : Bool × TransactionOutput)
    (hl1 : mapLookup m1 k = some bv1) (hl2 : mapLookup m2 k = some bv2) :
    bv1.2 = bv2.2 := by
  have hm1 := mapLookup_mem m1 k bv1 hl1
  have hm2 := mapLookup_mem m2 k bv2 hl2
  obtain ⟨t1, ht1, o1, ho1, hv1⟩ := h1 (k, bv1) hm1
  obtain ⟨t2, ht2, o2, ho2, hv2⟩ := h2 (k, bv2) hm2
  have ht : t1 = t2 := hInj (ht1.trans ht2.symm)
  subst ht
  rw [ho1] at ho2
  cases ho2
  rw [hv1, hv2]

theorem lookupValues_pinned_eq (M : HashModel) (hInj : Function.Injective M.txHash)
    (m1 m2 : UtxoMap) (h1 : pinned M m1) (h2 : pinned M m2) :
    ∀ (l : List TransactionInput) (vals1 vals2 : List Nat),
      lookupValues m1 l = some vals1 → lookupValues m2 l = some vals2 → vals1 = vals2
  | [], vals1, vals2, hv1, hv2 => by
    simp only [lookupValues, Option.some.injEq] at hv1 hv2
    rw [← hv1, ← hv2]
  | i :: rest, vals1, vals2, hv1, hv2 => by
    simp only [lookupValues] at hv1 hv2
    rcases hl1 : mapLookup m1 i.prev_transaction_output_hash with _ | bv1
    · simp only [hl1] at hv1
      cases hv1
    · rcases hl2 : mapLookup m2 i.prev_transaction_output_hash with _ | bv2
      · simp only [hl2] at hv2
        cases hv2
      · simp only [hl1] at hv1
        simp only [hl2] at hv2
        rcases hr1 : lookupValues m1 rest with _ | rest1
        · simp only [hr1] at hv1
          cases hv1
        · rcases hr2 : lookupValues m2 rest with _ | rest2
          · simp only [hr2] at hv2
            cases hv2
          · simp only [hr1, Option.some.injEq] at hv1
            simp only [hr2, Option.some.injEq] at hv2
            rw [← hv1, ← hv2]
            have hval := pinned_lookup_value M hInj m1 m2 h1 h2
              i.prev_transaction_output_hash bv1 bv2 hl1 hl2
            rw [hval, lookupValues_pinned_eq M hInj m1 m2 h1 h2 rest rest1 rest2 hr1 hr2]

theorem minerFee_pinned_eq (M : HashModel) (hInj : Function.Injective M.txHash)
    (m1 m2 : UtxoMap) (h1 : pinned M m1) (h2 : pinned M m2) (t : Transaction)
    (fa fb : Nat) (hfa : minerFee m1 t = some fa) (hfb : minerFee m2 t = some fb) :
    fa = fb := by
  unfold minerFee inputsTotal at hfa hfb
  rcases hlv1 : lookupValues m1 t.inputs with _ | vals1
  · simp only [hlv1] at hfa
    cases hfa
  · rcases hlv2 : lookupValues m2 t.inputs with _ | vals2
    · simp only [hlv2] at hfb
      cases hfb
    · simp only [hlv1] at hfa
      simp only [hlv2] at hfb
      have hvals : vals1 = vals2 :=
        lookupValues_pinned_eq M hInj m1 m2 h1 h2 t.inputs vals1 vals2 hlv1 hlv2
      subst hvals
      rcases hsum : u64sum vals1 with _ | iv
      · simp only [hsum] at hfa
        cases hfa
      · simp only [hsum] at hfa hfb
        rcases hout : outputsTotal t.outputs with _ | ov
        · simp only [hout] at hfa
          cases hfa
        · simp only [hout] at hfa hfb
          by_cases hlt : iv < ov
          · rw [if_pos hlt] at hfa
            cases hfa
          · rw [if_neg hlt] at hfa hfb
            cases hfa
            cases hfb
            rfl

/-! ### The sort of add_to_mempool produces a fee-ordered mempool -/

theorem sortMempool_ordered (M : HashModel) (hInj : Function.Injective M.txHash)
    (u : UtxoMap) (hpin : pinned M u) (mp sorted : List (Int × Transaction))
    (h : sortMempool u mp = some sorted) : sorted.Pairwise (feeOrdered M) := by
  unfold sortMempool at h
  rw [Option.map_eq_some'] at h
  obtain ⟨ks, hks, hsorted⟩ := h
  subst hsorted
  rw [List.pairwise_map]
  have hsort : (List.insertionSort feeRel ks).Pairwise feeRel :=
    List.sorted_insertionSort feeRel ks
  apply hsort.imp_of_mem
  intro pa pb hpa hpb hrel
  have hpa2 : pa ∈ ks := ((List.perm_insertionSort feeRel ks).mem_iff).mp hpa
  have hpb2 : pb ∈ ks := ((List.perm_insertionSort feeRel ks).mem_iff).mp hpb
  have hfa := attachFees_mem_fee u mp ks hks pa hpa2
  have hfb := attachFees_mem_fee u mp ks hks pb hpb2
  intro m hpm fa fb hma hmb
  have hea : fa = pa.2 := minerFee_pinned_eq M hInj m u hpm hpin pa.1.2 fa pa.2 hma hfa
  have heb : fb = pb.2 := minerFee_pinned_eq M hInj m u hpm hpin pb.1.2 fb pb.2 hmb hfb
  rw [hea, heb]
  exact hrel

/-! ### Mempool shrinkage lemmas -/

theorem evictStep_mempool_sublist (M : HashModel) (bc : Blockchain) (i : TransactionInput) :
    List.Sublist (evictStep M bc i).mempool bc.mempool := by
  unfold evictStep
  split
  · split
    · split
      · exact List.eraseIdx_sublist bc.mempool _
      · exact List.Sublist.refl _
    · exact List.Sublist.refl _
  · exact List.Sublist.refl _

theorem evictAll_mempool_sublist (M : HashModel) (bc : Blockchain) (tx : Transaction) :
    List.Sublist (evictAll M bc tx).mempool bc.mempool := by
  unfold evictAll
  have hgen : ∀ (l : List TransactionInput) (st : Blockchain),
      List.Sublist (l.foldl (evictStep M) st).mempool st.mempool := by
    intro l
    induction l with
    | nil => intro st; exact List.Sublist.refl _
    | cons x xs ih =>
      intro st
      rw [List.foldl_cons]
      exact (ih (evictStep M st x)).trans (evictStep_mempool_sublist M st x)
  exact hgen tx.inputs bc

/-! ### Claim C9 -/

/-- Claim C9 (confirmed, reading the fee of a transaction as defined
whenever all of its referenced UTXOs are still present — the source aborts
on the sort otherwise — and assuming the transaction hash is collision-free,
as SHA-256 is in practice).  In every reachable chain state the mempool is
pairwise ordered by ascending miner fee against the current UTXO set:
`add_to_mempool` re-sorts the whole pool by fee, `add_block` and
`cleanup_mempool` only remove entries (preserving relative order), no
operation ever changes the stored output of a UTXO entry, and
`rebuild_utxos` rewrites entries only with the pinned value determined by
the key, so fees never change while defined. -/
theorem c9_mempool_fee_sorted (M : HashModel) (hInj : Function.Injective M.txHash)
    (bc : Blockchain) (h : Reachable M bc) : mempoolFeeSorted bc := by
  have key : pinned M bc.utxos ∧ bc.mempool.Pairwise (feeOrdered M) := by
    induction h with
    | init => exact ⟨fun e he => absurd he (List.not_mem_nil e), List.Pairwise.nil⟩
    | addBlockOk hr hok ih =>
      obtain ⟨hv, bc3, hta, hbc2⟩ := addBlock_ok_elim _ _ _ _ hok
      obtain ⟨-, hutx, hmp⟩ := tryAdjust_fields _ _ hta
      rw [hbc2]
      constructor
      · show pinned M bc3.utxos
        rw [hutx]
        exact ih.1
      · show bc3.mempool.Pairwise (feeOrdered M)
        rw [hmp]
        exact ih.2.sublist (List.filter_sublist _)
    | addBlockErr hr herr ih =>
      rw [addBlock_err_elim _ _ _ _ _ herr]
      exact ih
    | addToMempoolOk hr hok ih =>
      next bc0 now tx bc2 =>
      obtain ⟨-, sorted, hs, hbc2⟩ := addToMempool_ok_elim _ _ _ _ _ hok
      have hpin2 : pinned M (reservedState M bc0 tx).utxos :=
        pinned_reserveAll M _ _ (pinned_evictAll M bc0 tx ih.1)
      rw [hbc2]
      exact ⟨hpin2, sortMempool_ordered M hInj _ hpin2 _ sorted hs⟩
    | addToMempoolErr hr herr ih =>
      rcases addToMempool_err_state _ _ _ _ _ _ herr with h2 | h2
      · rw [h2]
        exact ih
      · rw [h2]
        next bc0 now tx e bc2 =>
        exact ⟨pinned_evictAll M bc0 tx ih.1,
          ih.2.sublist (evictAll_mempool_sublist M bc0 tx)⟩
    | cleanup now hr ih =>
      exact ⟨pinned_unreserveAll M _ _ ih.1, ih.2.sublist (List.filter_sublist _)⟩
    | rebuild hr ih =>
      exact ⟨pinned_rebuildUtxos M _ ih.1, ih.2⟩
  unfold mempoolFeeSorted
  apply key.2.imp
  intro a b hab
  unfold feeLE
  rcases hfa : minerFee bc.utxos a.2 with _ | fa
  · rfl
  · rcases hfb : minerFee bc.utxos b.2 with _ | fb
    · rfl
    · simpa using hab bc.utxos key.1 fa fb hfa hfb

/-! ### Injectivity of the encoding model -/

theorem encList_injective : Function.Injective encList := by
  intro l1
  induction l1 with
  | nil =>
    intro l2 h
    cases l2 with
    | nil => rfl
    | cons b m =>
      simp only [encList, List.foldr_nil, List.foldr_cons] at h
      omega
  | cons a l ih =>
    intro l2 h
    cases l2 with
    | nil =>
      simp only [encList, List.foldr_nil, List.foldr_cons] at h
      omega
    | cons b m =>
      simp only [encList, List.foldr_cons] at h
      have h2 : Nat.pair a (List.foldr (fun a acc => Nat.pair a acc + 1) 0 l) =
          Nat.pair b (List.foldr (fun a acc => Nat.pair a acc + 1) 0 m) := by omega
      rw [Nat.pair_eq_pair] at h2
      rw [h2.1]
      have hrest := @ih m (by simpa [encList] using h2.2)
      rw [hrest]

theorem encInput_injective : Function.Injective encInput := by
  intro i1 i2 h
  unfold encInput at h
  rw [Nat.pair_eq_pair] at h
  cases i1
  cases i2
  simp only at h
  rw [h.1, h.2]

theorem encOutput_injective : Function.Injective encOutput := by
  intro o1 o2 h
  unfold encOutput at h
  rw [Nat.pair_eq_pair] at h
  obtain ⟨h1, h2⟩ := h
  rw [Nat.pair_eq_pair] at h2
  cases o1
  cases o2
  simp only at h1 h2
  rw [h1, h2.1, h2.2]

theorem encTx_injective : Function.Injective encTx := by
  intro t1 t2 h
  unfold encTx at h
  rw [Nat.pair_eq_pair] at h
  have hin := List.map_injective_iff.mpr encInput_injective
    (encList_injective h.1)
  have hout := List.map_injective_iff.mpr encOutput_injective
    (encList_injective h.2)
  cases t1
  cases t2
  simp only at hin hout
  rw [hin, hout]

/-- Witness for claim C9's theorem: the injective encoding model and the
initial chain state. -/
theorem c9_witness : mempoolFeeSorted Blockchain.new :=
  c9_mempool_fee_sorted MInj encTx_injective Blockchain.new Reachable.init

/-! ### Claim C7 -/

/-- Claim C7 (confirmed, reading each error as fired when its check is
reached, i.e. all earlier checks passed).  On an empty chain `add_block`
fails with `InvalidBlock` exactly when `prev_block_hash ≠ Hash::zero()`
(otherwise it succeeds); on a non-empty chain it fails with `InvalidHash`
when the previous hash does not match the last block, with `InvalidBlock`
when the header hash misses the header target or (all earlier checks
passing) the timestamp is not strictly greater than the last block's, and
with `InvalidMerkleRoot` when the recomputed Merkle root does not equal
`header.merkle_root`.  Every error leaves the state untouched. -/
theorem c7_add_block_error_discipline (M : HashModel) (bc : Blockchain) (b : Block) :
    (bc.blocks = [] → b.header.prev_block_hash ≠ 0 →
      addBlock M bc b = .err .InvalidBlock bc) ∧
    (bc.blocks = [] → b.header.prev_block_hash = 0 →
      addBlock M bc b = .ok { bc with
        mempool := filteredMempool M bc b,
        blocks := bc.blocks ++ [b] }) ∧
    (∀ prev, bc.blocks.getLast? = some prev →
      (b.header.prev_block_hash ≠ M.blockHash prev →
        addBlock M bc b = .err .InvalidHash bc) ∧
      (b.header.prev_block_hash = M.blockHash prev →
        matchesTarget (M.headerHash b.header) b.header.target = false →
        addBlock M bc b = .err .InvalidBlock bc) ∧
      (b.header.prev_block_hash = M.blockHash prev →
        matchesTarget (M.headerHash b.header) b.header.target = true →
        merkleCalculate M b.transactions ≠ some b.header.merkle_root →
        addBlock M bc b = .err .InvalidMerkleRoot bc) ∧
      (b.header.prev_block_hash = M.blockHash prev →
        matchesTarget (M.headerHash b.header) b.header.target = true →
        merkleCalculate M b.transactions = some b.header.merkle_root →
        b.header.timestamp ≤ prev.header.timestamp →
        addBlock M bc b = .err .InvalidBlock bc)) := by
  refine ⟨?_, ?_, ?_⟩
  · intro h1 h2
    simp [addBlock, validateBlock, h1, h2]
  · intro h1 h2
    simp [addBlock, validateBlock, commitBlock, tryAdjustTarget, tryAdjustTargetValue, h1, h2]
  · intro prev hlast
    have hne : bc.blocks.isEmpty = false := by
      cases hb : bc.blocks with
      | nil => rw [hb] at hlast; cases hlast
      | cons x xs => rfl
    refine ⟨?_, ?_, ?_, ?_⟩
    · intro hprev
      simp [addBlock, validateBlock, hne, hlast, hprev]
    · intro hprev hmt
      simp [addBlock, validateBlock, hne, hlast, hprev, hmt]
    · intro hprev hmt hmr
      rcases hcal : merkleCalculate M b.transactions with _ | mr
      · simp [addBlock, validateBlock, hne, hlast, hprev, hmt, hcal]
      · have hmr2 : mr ≠ b.header.merkle_root := by
          intro hh
          exact hmr (by rw [hcal, hh])
        simp [addBlock, validateBlock, hne, hlast, hprev, hmt, hcal, hmr2]
    · intro hprev hmt hmr hts
      simp [addBlock, validateBlock, hne, hlast, hprev, hmt, hmr, hts]

/-- Witness for claim C7's theorem: a nonzero previous hash on an empty
chain yields `InvalidBlock`, and a second block proposing
`prev_block_hash = 0` on a one-block chain (whose tip hashes to `3`)
yields `InvalidHash`. -/
theorem c7_witness :
    addBlock M1 Blockchain.new bBadGenesis = .err .InvalidBlock Blockchain.new ∧
    addBlock M1 s1n bPrevZero = .err .InvalidHash s1n :=
  ⟨(c7_add_block_error_discipline M1 Blockchain.new bBadGenesis).1 rfl (by decide),
    ((c7_add_block_error_discipline M1 s1n bPrevZero).2.2 Bn0 (by decide)).1 (by decide)⟩

end Btc
